import Mathlib

/-!
# Streaming driver of `zs` (src/zs.cpp): `ZS::decompress` and `ZS::compress`

The two loops of `src/zs.cpp` are embedded as fuel-indexed functions.  The zstd
library, the reader callback `in_fn` and the writer callback `out_fn` are not part
of the repository: the library is a record of functions over an abstract session
state, the reader is a state transformer, and every call the driver makes is
recorded, in order, in a trace.

* `int` is `Int`; `size_t` / `filesize_t` are `Nat` reduced modulo `2 ^ 64`;
  the casts `(int)x` and `(size_t)x` are `toInt` and `toSizeT`.
* A loop that has not returned when its fuel is spent yields `Status.running`.
-/

namespace ZS

/-! ## Machine integers -/

/-- One `char` of a buffer. -/
abbrev Byte := UInt8

/-- The cast `(int)x` of a `size_t` value: reduction to 32 bits, two's complement. -/
def toInt (n : Nat) : Int :=
  if n % 2 ^ 32 < 2 ^ 31 then ((n % 2 ^ 32 : Nat) : Int) else ((n % 2 ^ 32 : Nat) : Int) - 2 ^ 32

/-- The cast `(size_t)x` of an `int` value: reduction modulo `2 ^ 64`. -/
def toSizeT (i : Int) : Nat := (i % 2 ^ 64).toNat

/-- The value `(filesize_t)-1`, the default of `maxlen`. -/
def unbounded : Nat := 2 ^ 64 - 1

/-! ## The zstd interface used by the driver -/

/-- The `ZSTD_inBuffer` of zstd.h: `{ src, size, pos }`. -/
structure ZSTD_inBuffer where
  src : List Byte
  size : Nat
  pos : Nat
deriving DecidableEq, Repr

/-- The `ZSTD_EndDirective` of zstd.h. -/
inductive ZSTD_EndDirective where
  | ZSTD_e_continue
  | ZSTD_e_flush
  | ZSTD_e_end
deriving DecidableEq, Repr

/-- The two `ZSTD_cParameter` values the driver sets. -/
inductive ZSTD_cParameter where
  | ZSTD_c_compressionLevel
  | ZSTD_c_checksumFlag
deriving DecidableEq, Repr

/-- What one `ZSTD_decompressStream` / `ZSTD_compressStream2` call leaves behind:
the session, `input.pos`, the bytes `buffOut[0 .. output.pos)` and the return value. -/
structure StepResult (σ : Type) where
  ctx : σ
  pos : Nat
  out : List Byte
  ret : Nat

/-- The decompression half of zstd, over an abstract `ZSTD_DCtx` state `σ`.
`ZSTD_decompressStream dctx cap input` is the call with a fresh output view
`{ buffOut, cap, 0 }`. -/
structure DEngine (σ : Type) where
  ZSTD_DStreamInSize : Nat
  ZSTD_DStreamOutSize : Nat
  ZSTD_createDCtx : Option σ
  ZSTD_decompressStream : σ → Nat → ZSTD_inBuffer → StepResult σ
  ZSTD_isError : Nat → Bool
  ZSTD_getErrorName : Nat → String

/-- The compression half of zstd, over an abstract `ZSTD_CCtx` state `σ`. -/
structure CEngine (σ : Type) where
  ZSTD_CStreamInSize : Nat
  ZSTD_CStreamOutSize : Nat
  ZSTD_CLEVEL_DEFAULT : Int
  ZSTD_createCCtx : Option σ
  ZSTD_CCtx_setParameter : σ → ZSTD_cParameter → Int → σ × Nat
  ZSTD_compressStream2 : σ → Nat → ZSTD_inBuffer → ZSTD_EndDirective → StepResult σ
  ZSTD_isError : Nat → Bool
  ZSTD_getErrorName : Nat → String

/-! ## Callbacks and traces -/

/-- What one `in_fn(buffIn, len)` call leaves behind: the returned count, the
contents of `buffIn` and the reader's next state. -/
structure ReadResult (ρ : Type) where
  ret : Int
  buf : List Byte
  next : ρ

/-- The callback `in_fn`, as a transformer of its captured state `ρ`. -/
abbrev Reader (ρ : Type) := ρ → Int → ReadResult ρ

/-- One call made by the driver. -/
inductive Event where
  | read (len : Int) (ret : Int) (buf : List Byte)
  | decode (input : ZSTD_inBuffer) (pos : Nat) (out : List Byte) (ret : Nat)
  | encode (input : ZSTD_inBuffer) (mode : ZSTD_EndDirective) (pos : Nat) (out : List Byte)
      (ret : Nat)
  | write (buf : List Byte) (len : Int)
deriving DecidableEq, Repr

/-- How a call stands: returned `true`, returned `false`, or still in a loop. -/
inductive Status where
  | success
  | failure
  | running
deriving DecidableEq, Repr

/-- The observable result of one call of `ZS::compress` / `ZS::decompress`:
the return value, the member `error`, the values assigned to `error` after the
initial reset, and the calls made. -/
structure Run where
  status : Status
  error : String
  errorSets : List String
  trace : List Event
deriving DecidableEq, Repr

/-- The same run with the events `es` in front. -/
def Run.pre (es : List Event) (r : Run) : Run :=
  { r with trace := es ++ r.trace }

/-- The object `ZS`: its only member is `error`. -/
structure ZSObj where
  error : String
deriving DecidableEq, Repr

/-- The path `error = msg; return false;`. -/
def ZSObj.fail (zs : ZSObj) (msg : String) : Run :=
  let zs1 : ZSObj := { zs with error := msg }
  { status := Status.failure, error := zs1.error, errorSets := [msg], trace := [] }

/-- The path `return true;`. -/
def ZSObj.succeed (zs : ZSObj) : Run :=
  { status := Status.success, error := zs.error, errorSets := [], trace := [] }

/-- A loop whose fuel is spent. -/
def ZSObj.spin (zs : ZSObj) : Run :=
  { status := Status.running, error := zs.error, errorSets := [], trace := [] }

/-! ## `ZS::decompress` -/

/-- How the inner `while (input.pos < input.size)` loop of `decompress` ends. -/
inductive DInner (σ : Type) where
  | failed (msg : String) (tr : List Event)
  | capped (tr : List Event)
  | drained (dctx : σ) (total : Nat) (tr : List Event)
  | running (tr : List Event)

/-- The same ending with the events `es` in front. -/
def DInner.pre {σ : Type} (es : List Event) : DInner σ → DInner σ
  | .failed msg tr => .failed msg (es ++ tr)
  | .capped tr => .capped (es ++ tr)
  | .drained dctx total tr => .drained dctx total (es ++ tr)
  | .running tr => .running (es ++ tr)

/-- Lines 63-76: the loop `while (input.pos < input.size)`. -/
def decodeLoop {σ : Type} (E : DEngine σ) (maxlen : Nat) :
    Nat → σ → ZSTD_inBuffer → Nat → DInner σ
  | 0, dctx, input, total =>
    if input.pos < input.size then .running [] else .drained dctx total []
  | fuel + 1, dctx, input, total =>
    if input.pos < input.size then
      let r := E.ZSTD_decompressStream dctx E.ZSTD_DStreamOutSize input
      if E.ZSTD_isError r.ret then
        .failed (E.ZSTD_getErrorName r.ret) [Event.decode input r.pos r.out r.ret]
      else
        let len : Int := toInt r.out.length
        let total1 : Nat := (total + toSizeT len) % 2 ^ 64
        if maxlen ≠ unbounded ∧ total1 ≥ maxlen then
          .capped [Event.decode input r.pos r.out r.ret, Event.write r.out len]
        else
          (decodeLoop E maxlen fuel r.ctx { input with pos := r.pos } total1).pre
            [Event.decode input r.pos r.out r.ret, Event.write r.out len]
    else .drained dctx total []

/-- Lines 78-83: the label `done`. -/
def decompressDone (zs : ZSObj) (isEmpty : Bool) : Run :=
  if isEmpty then zs.fail "input is empty" else zs.succeed

/-- Lines 58-77: the loop `while (1)` of `decompress`, followed by `done`. -/
def readLoop {σ ρ : Type} (E : DEngine σ) (in_fn : Reader ρ) (maxlen : Nat) (zs : ZSObj) :
    Nat → ρ → σ → Nat → Bool → Run
  | 0, _, _, _, _ => zs.spin
  | fuel + 1, rd, dctx, total, isEmpty =>
    let toRead : Nat := E.ZSTD_DStreamInSize
    let x := in_fn rd (toInt toRead)
    if x.ret < 1 then (decompressDone zs isEmpty).pre [Event.read (toInt toRead) x.ret x.buf]
    else
      let input : ZSTD_inBuffer := { src := x.buf, size := toSizeT x.ret, pos := 0 }
      match decodeLoop E maxlen fuel dctx input total with
      | .failed msg tr => (zs.fail msg).pre (Event.read (toInt toRead) x.ret x.buf :: tr)
      | .capped tr => (decompressDone zs false).pre (Event.read (toInt toRead) x.ret x.buf :: tr)
      | .drained dctx1 total1 tr =>
        (readLoop E in_fn maxlen zs fuel x.next dctx1 total1 false).pre
          (Event.read (toInt toRead) x.ret x.buf :: tr)
      | .running tr => zs.spin.pre (Event.read (toInt toRead) x.ret x.buf :: tr)

/-- The method `ZS::decompress(in_fn, out_fn, maxlen)` (lines 39-84), run on the
object `zs0` with the reader in state `rd`. -/
def decompress {σ ρ : Type} (E : DEngine σ) (in_fn : Reader ρ) (zs0 : ZSObj) (rd : ρ)
    (maxlen : Nat) (fuel : Nat) : Run :=
  let zs : ZSObj := { zs0 with error := "" }
  match E.ZSTD_createDCtx with
  | none => zs.fail "ZSTD_createDCtx() failed"
  | some dctx => readLoop E in_fn maxlen zs fuel rd dctx 0 true

/-! ## `ZS::compress` -/

/-- How the `do ... while (!finished)` loop of `compress` ends. -/
inductive CInner (σ : Type) where
  | failed (msg : String) (tr : List Event)
  | finished (cctx : σ) (input : ZSTD_inBuffer) (tr : List Event)
  | running (tr : List Event)

/-- The same ending with the events `es` in front. -/
def CInner.pre {σ : Type} (es : List Event) : CInner σ → CInner σ
  | .failed msg tr => .failed msg (es ++ tr)
  | .finished cctx input tr => .finished cctx input (es ++ tr)
  | .running tr => .running (es ++ tr)

/-- Line 131: `finished = lastChunk ? (remaining == 0) : (input.pos == input.size)`. -/
def finished (lastChunk : Bool) (remaining : Nat) (input : ZSTD_inBuffer) : Bool :=
  if lastChunk then remaining == 0 else input.pos == input.size

/-- Lines 123-132: the loop `do ... while (!finished)`. -/
def encodeLoop {σ : Type} (E : CEngine σ) (lastChunk : Bool) (mode : ZSTD_EndDirective) :
    Nat → σ → ZSTD_inBuffer → CInner σ
  | 0, _, _ => .running []
  | fuel + 1, cctx, input =>
    let r := E.ZSTD_compressStream2 cctx E.ZSTD_CStreamOutSize input mode
    if E.ZSTD_isError r.ret then
      .failed (E.ZSTD_getErrorName r.ret) [Event.encode input mode r.pos r.out r.ret]
    else
      let input1 : ZSTD_inBuffer := { input with pos := r.pos }
      if finished lastChunk r.ret input1 then
        .finished r.ctx input1
          [Event.encode input mode r.pos r.out r.ret, Event.write r.out (toInt r.out.length)]
      else
        (encodeLoop E lastChunk mode fuel r.ctx input1).pre
          [Event.encode input mode r.pos r.out r.ret, Event.write r.out (toInt r.out.length)]

/-- Lines 117-139: the loop `while (1)` of `compress`. -/
def chunkLoop {σ ρ : Type} (E : CEngine σ) (in_fn : Reader ρ) (zs : ZSObj) :
    Nat → ρ → σ → Run
  | 0, _, _ => zs.spin
  | fuel + 1, rd, cctx =>
    let toRead : Nat := E.ZSTD_CStreamInSize
    let x := in_fn rd (toInt toRead)
    let lastChunk : Bool := decide (x.ret < toInt toRead)
    let mode : ZSTD_EndDirective :=
      if lastChunk then ZSTD_EndDirective.ZSTD_e_end else ZSTD_EndDirective.ZSTD_e_continue
    let input : ZSTD_inBuffer := { src := x.buf, size := toSizeT x.ret, pos := 0 }
    match encodeLoop E lastChunk mode fuel cctx input with
    | .failed msg tr => (zs.fail msg).pre (Event.read (toInt toRead) x.ret x.buf :: tr)
    | .running tr => zs.spin.pre (Event.read (toInt toRead) x.ret x.buf :: tr)
    | .finished cctx1 input1 tr =>
      if input1.pos ≠ input1.size then
        (zs.fail "zstd only returns 0 when the input is completely consumed").pre
          (Event.read (toInt toRead) x.ret x.buf :: tr)
      else if lastChunk then zs.succeed.pre (Event.read (toInt toRead) x.ret x.buf :: tr)
      else
        (chunkLoop E in_fn zs fuel x.next cctx1).pre
          (Event.read (toInt toRead) x.ret x.buf :: tr)

/-- Lines 98-114: the session after `ZSTD_createCCtx` and the two
`ZSTD_CCtx_setParameter` calls, or the error message of the first failure. -/
def configure {σ : Type} (E : CEngine σ) : Except String σ :=
  match E.ZSTD_createCCtx with
  | none => .error "ZSTD_createCCtx() failed"
  | some cctx =>
    let p1 := E.ZSTD_CCtx_setParameter cctx ZSTD_cParameter.ZSTD_c_compressionLevel
      E.ZSTD_CLEVEL_DEFAULT
    if E.ZSTD_isError p1.2 then .error (E.ZSTD_getErrorName p1.2)
    else
      let p2 := E.ZSTD_CCtx_setParameter p1.1 ZSTD_cParameter.ZSTD_c_checksumFlag 1
      if E.ZSTD_isError p2.2 then .error (E.ZSTD_getErrorName p2.2)
      else .ok p2.1

/-- The method `ZS::compress(in_fn, out_fn)` (lines 86-142), run on the object
`zs0` with the reader in state `rd`. -/
def compress {σ ρ : Type} (E : CEngine σ) (in_fn : Reader ρ) (zs0 : ZSObj) (rd : ρ)
    (fuel : Nat) : Run :=
  let zs : ZSObj := { zs0 with error := "" }
  match configure E with
  | .error msg => zs.fail msg
  | .ok cctx => chunkLoop E in_fn zs fuel rd cctx

/-! ## Observations on traces -/

/-- The bytes one call hands to `out_fn`: the first `len` bytes of the buffer. -/
def Event.given : Event → List Byte
  | .write buf len => buf.take len.toNat
  | _ => []

/-- Everything handed to the writer, in order. -/
def written (tr : List Event) : List Byte := (tr.map Event.given).flatten

/-- The bytes `src[from .. to)` of an input view. -/
def ZSTD_inBuffer.slice (input : ZSTD_inBuffer) (a b : Nat) : List Byte :=
  ((input.src.take input.size).take b).drop a

/-- The bytes one engine call consumes: `src[input.pos .. pos)`. -/
def Event.eaten : Event → List Byte
  | .decode input pos _ _ => input.slice input.pos pos
  | .encode input _ pos _ _ => input.slice input.pos pos
  | _ => []

/-- Everything the engine consumed, in order. -/
def consumed (tr : List Event) : List Byte := (tr.map Event.eaten).flatten

/-! ## Concrete readers -/

/-- The reader of `main`: `read(fd, ptr, len)` on a regular file holding `rest`,
without I/O errors. -/
def fileReader : Reader (List Byte) := fun rest len =>
  { ret := ((rest.take len.toNat).length : Nat), buf := rest.take len.toNat,
    next := rest.drop len.toNat }

/-- A reader that delivers the given chunks, one a call, then reports end of input. -/
def chunkReader : Reader (List (List Byte)) := fun cs _ =>
  match cs with
  | [] => { ret := 0, buf := [], next := [] }
  | c :: rest => { ret := (c.length : Nat), buf := c, next := rest }

/-- The reader of `main` on a descriptor whose `read` fails: every call returns `-1`. -/
def failingReader : Reader Unit := fun _ _ => { ret := -1, buf := [], next := () }

/-! ## A small codec behind the zstd interface

A frame is the payload with the tag `1` in front of every byte, closed by the
tag `0`.  Both directions move one payload byte a step. -/

namespace Toy

/-- The tagged payload. -/
def body : List Byte → List Byte
  | [] => []
  | b :: bs => 1 :: b :: body bs

/-- The frame of a payload. -/
def frame (s : List Byte) : List Byte := body s ++ [0]

/-- The return value for corrupt data, as zstd encodes it: `(size_t)-20`. -/
def corrupt : Nat := 2 ^ 64 - 20

/-- Error codes are the top 119 values of `size_t`. -/
def isError (c : Nat) : Bool := decide (2 ^ 64 - 120 < c)

/-- The description of an error code. -/
def getErrorName (c : Nat) : String :=
  if c = corrupt then "Data corruption detected" else "No error detected"

/-- What the decoder expects next. -/
inductive Phase where
  | tag
  | payload
  | closed
deriving DecidableEq, Repr

/-- One decode step: a tag, or a payload byte copied out, or an error. -/
def decodeStep (ph : Phase) (_cap : Nat) (input : ZSTD_inBuffer) : StepResult Phase :=
  match input.slice input.pos input.size with
  | [] => { ctx := ph, pos := input.pos, out := [], ret := if ph = Phase.closed then 0 else 1 }
  | b :: _ =>
    match ph with
    | .tag =>
      if b = 1 then { ctx := Phase.payload, pos := input.pos + 1, out := [], ret := 1 }
      else if b = 0 then { ctx := Phase.closed, pos := input.pos + 1, out := [], ret := 0 }
      else { ctx := ph, pos := input.pos, out := [], ret := corrupt }
    | .payload => { ctx := Phase.tag, pos := input.pos + 1, out := [b], ret := 1 }
    | .closed => { ctx := ph, pos := input.pos, out := [], ret := corrupt }

/-- The decoder, with an input block of 3 bytes and an output block of 2. -/
def dengine : DEngine Phase where
  ZSTD_DStreamInSize := 3
  ZSTD_DStreamOutSize := 2
  ZSTD_createDCtx := some Phase.tag
  ZSTD_decompressStream := decodeStep
  ZSTD_isError := isError
  ZSTD_getErrorName := getErrorName

/-- One encode step: a payload byte with its tag, or the closing tag on `ZSTD_e_end`. -/
def encodeStep (_s : Unit) (_cap : Nat) (input : ZSTD_inBuffer) (mode : ZSTD_EndDirective) :
    StepResult Unit :=
  match input.slice input.pos input.size with
  | [] =>
    if mode = ZSTD_EndDirective.ZSTD_e_end then
      { ctx := (), pos := input.pos, out := [0], ret := 0 }
    else { ctx := (), pos := input.pos, out := [], ret := 0 }
  | b :: _ => { ctx := (), pos := input.pos + 1, out := [1, b], ret := 1 }

/-- The encoder, with an input block of 2 bytes and an output block of 2. -/
def cengine : CEngine Unit where
  ZSTD_CStreamInSize := 2
  ZSTD_CStreamOutSize := 2
  ZSTD_CLEVEL_DEFAULT := 3
  ZSTD_createCCtx := some ()
  ZSTD_CCtx_setParameter := fun s _ _ => (s, 0)
  ZSTD_compressStream2 := encodeStep
  ZSTD_isError := isError
  ZSTD_getErrorName := getErrorName

end Toy

/-! ## Predicates used in the statements -/

/-- The member `error` of a run that started from the value `e0`: assigned once,
to the final value, when the call failed, and untouched otherwise. -/
def Run.Settled (e0 : String) (r : Run) : Prop :=
  (r.status = Status.failure ∧ r.errorSets = [r.error]) ∨
    (r.status ≠ Status.failure ∧ r.errorSets = [] ∧ r.error = e0)

/-- The engine call recorded in `e` returned an error code. -/
def Event.fault (isError : Nat → Bool) : Event → Bool
  | .decode _ _ _ ret => isError ret
  | .encode _ _ _ _ ret => isError ret
  | _ => false

/-- The event is a reader call. -/
def Event.isRead : Event → Bool
  | .read _ _ _ => true
  | _ => false

/-- The event is an engine call. -/
def Event.isStep : Event → Bool
  | .decode _ _ _ _ => true
  | .encode _ _ _ _ _ => true
  | _ => false

/-- The event is a writer call. -/
def Event.isWrite : Event → Bool
  | .write _ _ => true
  | _ => false

/-- Every engine call of the trace is followed at once by one writer call that is
handed exactly the bytes the engine call produced, and there is no other writer call. -/
def paired : List Event → Bool
  | [] => true
  | Event.read _ _ _ :: rest => paired rest
  | Event.decode _ _ out _ :: Event.write buf len :: rest =>
    decide (buf = out) && decide (len = toInt out.length) && paired rest
  | Event.encode _ _ _ out _ :: Event.write buf len :: rest =>
    decide (buf = out) && decide (len = toInt out.length) && paired rest
  | _ => false

/-- A stretch of a trace made by the inner loop alone: engine calls that returned
no error, each followed by its writer call, and no reader call. -/
def Clean (isError : Nat → Bool) (tr : List Event) : Prop :=
  paired tr = true ∧ (∀ e ∈ tr, e.fault isError = false) ∧ (∀ e ∈ tr, e.isRead = false)

/-- A stretch of a trace in which every engine call returned no error and is
followed by its writer call. -/
def Tidy (isError : Nat → Bool) (tr : List Event) : Prop :=
  paired tr = true ∧ (∀ e ∈ tr, e.fault isError = false)

/-- The trace of an inner-loop ending. -/
def DInner.trace {σ : Type} : DInner σ → List Event
  | .failed _ tr => tr
  | .capped tr => tr
  | .drained _ _ tr => tr
  | .running tr => tr

/-- What the ending of the inner loop of `decompress` says about its trace: a
failed loop ends on the failing engine call, whose code names the message. -/
def DInner.Shaped {σ : Type} (isError : Nat → Bool) (getErrorName : Nat → String) :
    DInner σ → Prop
  | .failed msg tr => ∃ pre i p o c, tr = pre ++ [Event.decode i p o c] ∧
      isError c = true ∧ msg = getErrorName c ∧ Clean isError pre
  | .capped tr => Clean isError tr ∧ tr ≠ []
  | .drained _ _ tr => Clean isError tr
  | .running tr => Clean isError tr

/-- What the result of the outer loop of `decompress` says about its trace. -/
def ReadShaped (isError : Nat → Bool) (getErrorName : Nat → String) (isEmpty : Bool)
    (r : Run) : Prop :=
  (r.status = Status.failure →
      (isEmpty = true ∧ r.error = "input is empty" ∧
        ∃ len ret buf, r.trace = [Event.read len ret buf] ∧ ret < 1) ∨
      (∃ pre i p o c, r.trace = pre ++ [Event.decode i p o c] ∧ isError c = true ∧
        r.error = getErrorName c ∧ Tidy isError pre)) ∧
    (r.status ≠ Status.failure → Tidy isError r.trace)

/-- An input view inside its buffer: `pos ≤ size ≤` the length of `src`. -/
def ZSTD_inBuffer.Valid (input : ZSTD_inBuffer) : Prop :=
  input.pos ≤ input.size ∧ input.size ≤ input.src.length

/-- The directive for a chunk: `ZSTD_e_end` for the final one, else `ZSTD_e_continue`. -/
def directive (lastChunk : Bool) : ZSTD_EndDirective :=
  if lastChunk then ZSTD_EndDirective.ZSTD_e_end else ZSTD_EndDirective.ZSTD_e_continue

/-- The contract of the encode step on a valid input view, with `μ` bounding the
steps still needed: no error, the cursor moves forward and stays inside the view,
the output fits its block, a return of 0 on the final chunk comes with the view
consumed, and every step that does not finish the chunk lowers `μ`. -/
def CEngine.Live {σ : Type} (E : CEngine σ) (μ : Bool → σ → ZSTD_inBuffer → Nat) : Prop :=
  ∀ (last : Bool) (s : σ) (input : ZSTD_inBuffer), input.Valid →
    E.ZSTD_isError (E.ZSTD_compressStream2 s E.ZSTD_CStreamOutSize input (directive last)).ret =
        false ∧
      input.pos ≤ (E.ZSTD_compressStream2 s E.ZSTD_CStreamOutSize input (directive last)).pos ∧
      (E.ZSTD_compressStream2 s E.ZSTD_CStreamOutSize input (directive last)).pos ≤ input.size ∧
      (E.ZSTD_compressStream2 s E.ZSTD_CStreamOutSize input (directive last)).out.length ≤
        E.ZSTD_CStreamOutSize ∧
      (last = true →
        (E.ZSTD_compressStream2 s E.ZSTD_CStreamOutSize input (directive last)).ret = 0 →
        (E.ZSTD_compressStream2 s E.ZSTD_CStreamOutSize input (directive last)).pos =
          input.size) ∧
      (finished last (E.ZSTD_compressStream2 s E.ZSTD_CStreamOutSize input (directive last)).ret
          { input with
            pos := (E.ZSTD_compressStream2 s E.ZSTD_CStreamOutSize input (directive last)).pos } =
          false →
        μ last (E.ZSTD_compressStream2 s E.ZSTD_CStreamOutSize input (directive last)).ctx
            { input with
              pos := (E.ZSTD_compressStream2 s E.ZSTD_CStreamOutSize input (directive last)).pos } <
          μ last s input)

/-- What the end-of-stream protocol of `compress` lets the next call be. -/
inductive Expect where
  | reading
  | stepping (last : Bool) (input : ZSTD_inBuffer)
  | nothing

/-- The end-of-stream protocol of `compress`, as an acceptor of traces.  A reader
call asks for `cap` bytes and opens a chunk, final when fewer than `cap` came.  A
chunk is a run of engine calls, each on the view the previous one left, each with
`ZSTD_e_end` on the final chunk and `ZSTD_e_continue` otherwise, each followed by
one writer call with exactly the bytes produced.  A chunk that is not final ends
with the first step that leaves the view consumed, and a reader call follows; the
final chunk ends with the first step that returns 0, and nothing follows. -/
def conforms (cap : Int) : Expect → List Event → Bool
  | .nothing, tr => tr.isEmpty
  | .reading, Event.read len ret buf :: rest =>
    decide (len = cap) &&
      conforms cap (.stepping (decide (ret < cap)) { src := buf, size := toSizeT ret, pos := 0 })
        rest
  | .stepping last input, Event.encode i mode pos out ret :: Event.write buf len :: rest =>
    decide (i = input) && decide (mode = directive last) && decide (buf = out) &&
      decide (len = (out.length : Int)) &&
      conforms cap
        (if last then (if ret = 0 then .nothing else .stepping last { input with pos := pos })
          else (if pos = input.size then .reading else .stepping last { input with pos := pos }))
        rest
  | _, _ => false

/-- The reader's captured state before its call number `i` (from 0), every call
asking for `len` bytes. -/
def callState {ρ : Type} (in_fn : Reader ρ) (len : Int) (rd : ρ) : Nat → ρ
  | 0 => rd
  | i + 1 => (in_fn (callState in_fn len rd i) len).next

/-- The result of the reader's call number `i` (from 0). -/
def call {ρ : Type} (in_fn : Reader ρ) (len : Int) (rd : ρ) (i : Nat) : ReadResult ρ :=
  in_fn (callState in_fn len rd i) len

/-- The chunks `compress` takes from a reader that delivers `cs`: those up to and
including the first one shorter than `cap`, or all of them and the empty chunk of
the read that follows. -/
def accepted (cap : Nat) : List (List Byte) → List (List Byte)
  | [] => [[]]
  | c :: rest => if c.length < cap then [c] else c :: accepted cap rest

/-- The contract of the decode step on the streams `Good`, with `Rel s i o` saying
that the session `s` has consumed `i` and produced `o` so far, and `μ` bounding the
steps still needed.  On a valid view with bytes left, whose bytes continue `i` to a
stream in `Good`: no error, the cursor moves forward and stays inside the view, the
output fits its block, the session has then consumed and produced what the step
adds, and a step that leaves bytes in the view lowers `μ`. -/
def DEngine.Decodes {σ : Type} (E : DEngine σ) (μ : σ → ZSTD_inBuffer → Nat)
    (Rel : σ → List Byte → List Byte → Prop) (Good : List Byte → Prop) : Prop :=
  ∀ (s : σ) (input : ZSTD_inBuffer) (i o : List Byte), input.Valid → input.pos < input.size →
    Rel s i o → Good (i ++ input.slice input.pos input.size) →
    E.ZSTD_isError (E.ZSTD_decompressStream s E.ZSTD_DStreamOutSize input).ret = false ∧
      input.pos ≤ (E.ZSTD_decompressStream s E.ZSTD_DStreamOutSize input).pos ∧
      (E.ZSTD_decompressStream s E.ZSTD_DStreamOutSize input).pos ≤ input.size ∧
      (E.ZSTD_decompressStream s E.ZSTD_DStreamOutSize input).out.length ≤
        E.ZSTD_DStreamOutSize ∧
      Rel (E.ZSTD_decompressStream s E.ZSTD_DStreamOutSize input).ctx
        (i ++ input.slice input.pos (E.ZSTD_decompressStream s E.ZSTD_DStreamOutSize input).pos)
        (o ++ (E.ZSTD_decompressStream s E.ZSTD_DStreamOutSize input).out) ∧
      ((E.ZSTD_decompressStream s E.ZSTD_DStreamOutSize input).pos < input.size →
        μ (E.ZSTD_decompressStream s E.ZSTD_DStreamOutSize input).ctx
            { input with pos := (E.ZSTD_decompressStream s E.ZSTD_DStreamOutSize input).pos } <
          μ s input)

/-- What the chunk discipline of `decompress` lets the next call be. -/
inductive DExpect where
  | reading
  | stepping (input : ZSTD_inBuffer)

/-- The chunk discipline of an uncapped, error-free `decompress`, as an acceptor of
traces.  A reader call asks for `cap` bytes; a return below 1 ends the trace, any
other return opens a view on the delivered bytes at offset 0.  A view is stepped by
engine calls, each on the view the previous one left and each followed by one
writer call with exactly the bytes produced, until the view is consumed; a reader
call follows. -/
def dconforms (cap : Int) : DExpect → List Event → Bool
  | .reading, Event.read len ret buf :: rest =>
    decide (len = cap) &&
      (if ret < 1 then rest.isEmpty
        else dconforms cap (.stepping { src := buf, size := toSizeT ret, pos := 0 }) rest)
  | .stepping input, Event.decode i pos out _ :: Event.write buf len :: rest =>
    decide (i = input) && decide (buf = out) && decide (len = (out.length : Int)) &&
      dconforms cap
        (if pos < input.size then .stepping { input with pos := pos } else .reading) rest
  | _, _ => false

/-- The reader in state `rd`, asked for `len` bytes a call, delivers the non-empty
chunks `cs`, one a call, and then reports end of input. -/
def Delivers {ρ : Type} (in_fn : Reader ρ) (len : Int) : ρ → List (List Byte) → Prop
  | rd, [] => (in_fn rd len).ret < 1
  | rd, c :: rest =>
    c ≠ [] ∧ (in_fn rd len).ret = (c.length : Nat) ∧ (in_fn rd len).buf = c ∧
      Delivers in_fn len (in_fn rd len).next rest

/-- The stream contract of the encode step, with `Rel s i o` saying that the
session `s` has consumed `i` and produced `o` so far: the step adds what it consumes
and produces, and when it returns 0 under `ZSTD_e_end` everything produced is the
frame of everything consumed. -/
def CEngine.Encodes {σ : Type} (E : CEngine σ) (Rel : σ → List Byte → List Byte → Prop)
    (frame : List Byte → List Byte) : Prop :=
  ∀ (last : Bool) (s : σ) (input : ZSTD_inBuffer) (i o : List Byte), input.Valid → Rel s i o →
    ((last = true ∧
        (E.ZSTD_compressStream2 s E.ZSTD_CStreamOutSize input (directive last)).ret = 0) →
      o ++ (E.ZSTD_compressStream2 s E.ZSTD_CStreamOutSize input (directive last)).out =
        frame (i ++ input.slice input.pos
          (E.ZSTD_compressStream2 s E.ZSTD_CStreamOutSize input (directive last)).pos)) ∧
    (¬ (last = true ∧
        (E.ZSTD_compressStream2 s E.ZSTD_CStreamOutSize input (directive last)).ret = 0) →
      Rel (E.ZSTD_compressStream2 s E.ZSTD_CStreamOutSize input (directive last)).ctx
        (i ++ input.slice input.pos
          (E.ZSTD_compressStream2 s E.ZSTD_CStreamOutSize input (directive last)).pos)
        (o ++ (E.ZSTD_compressStream2 s E.ZSTD_CStreamOutSize input (directive last)).out))

/-- What a session of the small decoder has consumed and produced, by phase. -/
def Toy.RelD : Toy.Phase → List Byte → List Byte → Prop
  | .tag, i, o => i = Toy.body o
  | .payload, i, o => i = Toy.body o ++ [1]
  | .closed, i, o => i = Toy.body o ++ [0]

/-- What a session of the small encoder has consumed and produced. -/
def Toy.RelC : Unit → List Byte → List Byte → Prop := fun _ i o => o = Toy.body i

/-! ## Casts -/

theorem toInt_of_lt {n : Nat} (h : n < 2 ^ 31) : toInt n = (n : Int) := by
  unfold toInt
  have h1 : n % 2 ^ 32 = n := Nat.mod_eq_of_lt (by omega)
  rw [h1, if_pos h]

theorem toSizeT_natCast {n : Nat} (h : n < 2 ^ 64) : toSizeT (n : Int) = n := by
  unfold toSizeT
  have h1 : ((n : Int) % 2 ^ 64) = (n : Int) := Int.emod_eq_of_lt (by omega) (by omega)
  rw [h1]
  simp

theorem toSizeT_toInt {n : Nat} (h : n < 2 ^ 31) : toSizeT (toInt n) = n := by
  rw [toInt_of_lt h, toSizeT_natCast (by omega)]

/-! ## Traces -/

@[simp] theorem Run.pre_status (es : List Event) (r : Run) : (r.pre es).status = r.status := rfl

@[simp] theorem Run.pre_error (es : List Event) (r : Run) : (r.pre es).error = r.error := rfl

@[simp] theorem Run.pre_errorSets (es : List Event) (r : Run) :
    (r.pre es).errorSets = r.errorSets := rfl

@[simp] theorem Run.pre_trace (es : List Event) (r : Run) : (r.pre es).trace = es ++ r.trace := rfl

@[simp] theorem written_nil : written [] = [] := rfl

@[simp] theorem written_append (a b : List Event) : written (a ++ b) = written a ++ written b := by
  simp [written]

@[simp] theorem written_cons (e : Event) (b : List Event) :
    written (e :: b) = e.given ++ written b := by
  simp [written]

@[simp] theorem consumed_nil : consumed [] = [] := rfl

@[simp] theorem consumed_append (a b : List Event) :
    consumed (a ++ b) = consumed a ++ consumed b := by
  simp [consumed]

@[simp] theorem consumed_cons (e : Event) (b : List Event) :
    consumed (e :: b) = e.eaten ++ consumed b := by
  simp [consumed]

/-! ## The member `error` -/

theorem Settled_fail (zs : ZSObj) (msg : String) : (zs.fail msg).Settled zs.error :=
  Or.inl ⟨rfl, rfl⟩

theorem Settled_succeed (zs : ZSObj) : zs.succeed.Settled zs.error :=
  Or.inr ⟨by simp [ZSObj.succeed], rfl, rfl⟩

theorem Settled_spin (zs : ZSObj) : zs.spin.Settled zs.error :=
  Or.inr ⟨by simp [ZSObj.spin], rfl, rfl⟩

theorem Settled_pre {e0 : String} {r : Run} (es : List Event) (h : r.Settled e0) :
    (r.pre es).Settled e0 := h

theorem Settled_done (zs : ZSObj) (b : Bool) : (decompressDone zs b).Settled zs.error := by
  unfold decompressDone
  split
  · exact Settled_fail zs _
  · exact Settled_succeed zs

theorem readLoop_Settled {σ ρ : Type} (E : DEngine σ) (in_fn : Reader ρ) (maxlen : Nat)
    (zs : ZSObj) (fuel : Nat) : ∀ (rd : ρ) (dctx : σ) (total : Nat) (isEmpty : Bool),
    (readLoop E in_fn maxlen zs fuel rd dctx total isEmpty).Settled zs.error := by
  induction fuel with
  | zero => intro rd dctx total isEmpty; exact Settled_spin zs
  | succ n ih =>
    intro rd dctx total isEmpty
    simp only [readLoop]
    split
    · exact Settled_pre _ (Settled_done zs _)
    · split
      · exact Settled_pre _ (Settled_fail zs _)
      · exact Settled_pre _ (Settled_done zs _)
      · exact Settled_pre _ (ih _ _ _ _)
      · exact Settled_pre _ (Settled_spin zs)

theorem decompress_Settled {σ ρ : Type} (E : DEngine σ) (in_fn : Reader ρ) (zs0 : ZSObj)
    (rd : ρ) (maxlen fuel : Nat) : (decompress E in_fn zs0 rd maxlen fuel).Settled "" := by
  unfold decompress
  split
  · exact Settled_fail _ _
  · exact readLoop_Settled E in_fn maxlen _ fuel _ _ _ _

theorem chunkLoop_Settled {σ ρ : Type} (E : CEngine σ) (in_fn : Reader ρ) (zs : ZSObj)
    (fuel : Nat) : ∀ (rd : ρ) (cctx : σ), (chunkLoop E in_fn zs fuel rd cctx).Settled zs.error := by
  induction fuel with
  | zero => intro rd cctx; exact Settled_spin zs
  | succ n ih =>
    intro rd cctx
    simp only [chunkLoop]
    split
    · exact Settled_pre _ (Settled_fail zs _)
    · exact Settled_pre _ (Settled_spin zs)
    · split
      · exact Settled_pre _ (Settled_fail zs _)
      · split
        · exact Settled_pre _ (Settled_succeed zs)
        · exact Settled_pre _ (ih _ _)

theorem compress_Settled {σ ρ : Type} (E : CEngine σ) (in_fn : Reader ρ) (zs0 : ZSObj)
    (rd : ρ) (fuel : Nat) : (compress E in_fn zs0 rd fuel).Settled "" := by
  unfold compress
  split
  · exact Settled_fail _ _
  · exact chunkLoop_Settled E in_fn _ fuel _ _

theorem Settled_facts {r : Run} (h : r.Settled "") :
    (r.status = Status.success → r.error = "") ∧
      (r.status = Status.failure ↔ r.errorSets.length = 1) ∧
      (r.status = Status.failure → r.errorSets = [r.error]) ∧
      (r.status ≠ Status.failure → r.errorSets = []) := by
  rcases h with ⟨h1, h2⟩ | ⟨h1, h2, h3⟩
  · refine ⟨fun h => ?_, ⟨fun _ => by rw [h2]; rfl, fun _ => h1⟩, fun _ => h2, fun h => absurd h1 h⟩
    rw [h1] at h
    cases h
  · refine ⟨fun _ => h3, ⟨fun h => absurd h h1, fun h => ?_⟩, fun h => absurd h h1, fun _ => h2⟩
    rw [h2] at h
    cases h

/-- C9: whatever value `error` held before the call, a `decompress` or `compress`
call that returns success leaves `error` empty; `error` is assigned after the
initial reset exactly when the call returns failure, then exactly once, and the
assigned value is the one `error` holds at return. -/
theorem error_reset {σ τ ρ : Type} (D : DEngine σ) (C : CEngine τ) (in_fn : Reader ρ)
    (zs0 : ZSObj) (rd : ρ) (maxlen fuel : Nat) :
    ((decompress D in_fn zs0 rd maxlen fuel).status = Status.success →
        (decompress D in_fn zs0 rd maxlen fuel).error = "") ∧
      ((decompress D in_fn zs0 rd maxlen fuel).status = Status.failure ↔
        (decompress D in_fn zs0 rd maxlen fuel).errorSets.length = 1) ∧
      ((decompress D in_fn zs0 rd maxlen fuel).status = Status.failure →
        (decompress D in_fn zs0 rd maxlen fuel).errorSets =
          [(decompress D in_fn zs0 rd maxlen fuel).error]) ∧
      ((decompress D in_fn zs0 rd maxlen fuel).status ≠ Status.failure →
        (decompress D in_fn zs0 rd maxlen fuel).errorSets = []) ∧
      ((compress C in_fn zs0 rd fuel).status = Status.success →
        (compress C in_fn zs0 rd fuel).error = "") ∧
      ((compress C in_fn zs0 rd fuel).status = Status.failure ↔
        (compress C in_fn zs0 rd fuel).errorSets.length = 1) ∧
      ((compress C in_fn zs0 rd fuel).status = Status.failure →
        (compress C in_fn zs0 rd fuel).errorSets = [(compress C in_fn zs0 rd fuel).error]) ∧
      ((compress C in_fn zs0 rd fuel).status ≠ Status.failure →
        (compress C in_fn zs0 rd fuel).errorSets = []) := by
  obtain ⟨a1, a2, a3, a4⟩ := Settled_facts (decompress_Settled D in_fn zs0 rd maxlen fuel)
  obtain ⟨b1, b2, b3, b4⟩ := Settled_facts (compress_Settled C in_fn zs0 rd fuel)
  exact ⟨a1, a2, a3, a4, b1, b2, b3, b4⟩

/-! ## The shape of a `decompress` trace -/

theorem paired_append : ∀ (a b : List Event), paired a = true → paired b = true →
    paired (a ++ b) = true
  | [], b, _, hb => hb
  | Event.read _ _ _ :: rest, b, ha, hb => by
    simp only [List.cons_append, paired] at ha ⊢
    exact paired_append rest b ha hb
  | Event.decode _ _ out _ :: Event.write buf len :: rest, b, ha, hb => by
    simp only [List.cons_append, paired, Bool.and_eq_true] at ha ⊢
    exact ⟨ha.1, paired_append rest b ha.2 hb⟩
  | Event.encode _ _ _ out _ :: Event.write buf len :: rest, b, ha, hb => by
    simp only [List.cons_append, paired, Bool.and_eq_true] at ha ⊢
    exact ⟨ha.1, paired_append rest b ha.2 hb⟩
  | [Event.decode _ _ _ _], _, ha, _ => by simp [paired] at ha
  | [Event.encode _ _ _ _ _], _, ha, _ => by simp [paired] at ha
  | Event.decode _ _ _ _ :: Event.read _ _ _ :: _, _, ha, _ => by simp [paired] at ha
  | Event.decode _ _ _ _ :: Event.decode _ _ _ _ :: _, _, ha, _ => by simp [paired] at ha
  | Event.decode _ _ _ _ :: Event.encode _ _ _ _ _ :: _, _, ha, _ => by simp [paired] at ha
  | Event.encode _ _ _ _ _ :: Event.read _ _ _ :: _, _, ha, _ => by simp [paired] at ha
  | Event.encode _ _ _ _ _ :: Event.decode _ _ _ _ :: _, _, ha, _ => by simp [paired] at ha
  | Event.encode _ _ _ _ _ :: Event.encode _ _ _ _ _ :: _, _, ha, _ => by simp [paired] at ha
  | Event.write _ _ :: _, _, ha, _ => by simp [paired] at ha

theorem Clean_nil (isError : Nat → Bool) : Clean isError [] :=
  ⟨rfl, by simp, by simp⟩

theorem Clean_step (isError : Nat → Bool) {input : ZSTD_inBuffer} {pos : Nat} {out : List Byte}
    {ret : Nat} {tr : List Event} (herr : isError ret = false) (h : Clean isError tr) :
    Clean isError (Event.decode input pos out ret :: Event.write out (toInt out.length) :: tr) := by
  obtain ⟨h1, h2, h3⟩ := h
  refine ⟨?_, ?_, ?_⟩
  · simp [paired, h1]
  · simpa [Event.fault, herr] using h2
  · simpa [Event.isRead] using h3

theorem Shaped_pre {σ : Type} (isError : Nat → Bool) (getErrorName : Nat → String)
    {input : ZSTD_inBuffer} {pos : Nat} {out : List Byte} {ret : Nat}
    (herr : isError ret = false) (x : DInner σ) (h : x.Shaped isError getErrorName) :
    (x.pre [Event.decode input pos out ret, Event.write out (toInt out.length)]).Shaped
      isError getErrorName := by
  cases x with
  | failed msg tr =>
    obtain ⟨pre, i, p, o, c, rfl, h1, h2, h3⟩ := h
    exact ⟨_ :: _ :: pre, i, p, o, c, rfl, h1, h2, Clean_step isError herr h3⟩
  | capped tr => exact ⟨Clean_step isError herr h.1, by simp⟩
  | drained d t tr => exact Clean_step isError herr h
  | running tr => exact Clean_step isError herr h

/-- What is known of the trace of a run of the inner loop of `decompress`. -/
theorem decodeLoop_shape {σ : Type} (E : DEngine σ) (maxlen : Nat) (fuel : Nat) :
    ∀ (dctx : σ) (input : ZSTD_inBuffer) (total : Nat),
    (decodeLoop E maxlen fuel dctx input total).Shaped E.ZSTD_isError E.ZSTD_getErrorName := by
  induction fuel with
  | zero =>
    intro dctx input total
    simp only [decodeLoop]
    split <;> exact Clean_nil _
  | succ n ih =>
    intro dctx input total
    simp only [decodeLoop]
    split
    · split
      · rename_i herr
        exact ⟨[], _, _, _, _, rfl, herr, rfl, Clean_nil _⟩
      · rename_i herr
        split
        · exact ⟨Clean_step _ (by simpa using herr) (Clean_nil _), by simp⟩
        · exact Shaped_pre _ _ (by simpa using herr) _ (ih _ _ _)
    · exact Clean_nil _

theorem Clean.tidy {isError : Nat → Bool} {tr : List Event} (h : Clean isError tr) :
    Tidy isError tr := ⟨h.1, h.2.1⟩

theorem Tidy_nil (isError : Nat → Bool) : Tidy isError [] := ⟨rfl, by simp⟩

theorem Tidy_read {isError : Nat → Bool} {tr : List Event} (len ret : Int) (buf : List Byte)
    (h : Tidy isError tr) : Tidy isError (Event.read len ret buf :: tr) := by
  refine ⟨?_, ?_⟩
  · simpa [paired] using h.1
  · simpa [Event.fault] using h.2

theorem Tidy_append {isError : Nat → Bool} {a b : List Event} (ha : Tidy isError a)
    (hb : Tidy isError b) : Tidy isError (a ++ b) := by
  refine ⟨paired_append a b ha.1 hb.1, ?_⟩
  intro e he
  rcases List.mem_append.1 he with h | h
  · exact ha.2 e h
  · exact hb.2 e h

theorem readLoop_shape {σ ρ : Type} (E : DEngine σ) (in_fn : Reader ρ) (maxlen : Nat)
    (zs : ZSObj) (fuel : Nat) : ∀ (rd : ρ) (dctx : σ) (total : Nat) (isEmpty : Bool),
    ReadShaped E.ZSTD_isError E.ZSTD_getErrorName isEmpty
      (readLoop E in_fn maxlen zs fuel rd dctx total isEmpty) := by
  induction fuel with
  | zero =>
    intro rd dctx total isEmpty
    exact ⟨fun h => by simp [readLoop, ZSObj.spin] at h, fun _ => Tidy_nil _⟩
  | succ n ih =>
    intro rd dctx total isEmpty
    simp only [readLoop]
    split
    · rename_i hret
      cases isEmpty with
      | true =>
        refine ⟨fun _ => Or.inl ⟨rfl, rfl, _, _, _, rfl, hret⟩, fun h => ?_⟩
        exact absurd rfl h
      | false =>
        refine ⟨fun h => ?_, fun _ => Tidy_read _ _ _ (Tidy_nil _)⟩
        simp [decompressDone, ZSObj.succeed] at h
    · split
      · rename_i msg tr heq
        have hs := decodeLoop_shape E maxlen n dctx
          { src := (in_fn rd (toInt E.ZSTD_DStreamInSize)).buf,
            size := toSizeT (in_fn rd (toInt E.ZSTD_DStreamInSize)).ret, pos := 0 } total
        rw [heq] at hs
        obtain ⟨pre, i, p, o, c, rfl, h1, h2, h3⟩ := hs
        refine ⟨fun _ => Or.inr ⟨Event.read (toInt E.ZSTD_DStreamInSize)
          (in_fn rd (toInt E.ZSTD_DStreamInSize)).ret
          (in_fn rd (toInt E.ZSTD_DStreamInSize)).buf :: pre, i, p, o, c, by simp [ZSObj.fail], h1,
          by simp [ZSObj.fail, h2], Tidy_read _ _ _ h3.tidy⟩, fun h => ?_⟩
        exact absurd rfl h
      · rename_i tr heq
        have hs := decodeLoop_shape E maxlen n dctx
          { src := (in_fn rd (toInt E.ZSTD_DStreamInSize)).buf,
            size := toSizeT (in_fn rd (toInt E.ZSTD_DStreamInSize)).ret, pos := 0 } total
        rw [heq] at hs
        refine ⟨fun h => ?_, fun _ => ?_⟩
        · simp [decompressDone, ZSObj.succeed] at h
        · simpa [decompressDone, ZSObj.succeed] using Tidy_read _ _ _ hs.1.tidy
      · rename_i dctx1 total1 tr heq
        have hs := decodeLoop_shape E maxlen n dctx
          { src := (in_fn rd (toInt E.ZSTD_DStreamInSize)).buf,
            size := toSizeT (in_fn rd (toInt E.ZSTD_DStreamInSize)).ret, pos := 0 } total
        rw [heq] at hs
        obtain ⟨k1, k2⟩ := ih (in_fn rd (toInt E.ZSTD_DStreamInSize)).next dctx1 total1 false
        have ht : Tidy E.ZSTD_isError
            (Event.read (toInt E.ZSTD_DStreamInSize) (in_fn rd (toInt E.ZSTD_DStreamInSize)).ret
              (in_fn rd (toInt E.ZSTD_DStreamInSize)).buf :: tr) := Tidy_read _ _ _ hs.tidy
        refine ⟨fun h => ?_, fun h => ?_⟩
        · rcases k1 h with ⟨hf, _⟩ | ⟨pre, i, p, o, c, e1, e2, e3, e4⟩
          · cases hf
          · refine Or.inr ⟨_ ++ pre, i, p, o, c, ?_, e2, e3, Tidy_append ht e4⟩
            simp [e1]
        · exact Tidy_append ht (k2 h)
      · rename_i tr heq
        have hs := decodeLoop_shape E maxlen n dctx
          { src := (in_fn rd (toInt E.ZSTD_DStreamInSize)).buf,
            size := toSizeT (in_fn rd (toInt E.ZSTD_DStreamInSize)).ret, pos := 0 } total
        rw [heq] at hs
        refine ⟨fun h => ?_, fun _ => ?_⟩
        · simp [ZSObj.spin] at h
        · simpa [ZSObj.spin] using Tidy_read _ _ _ hs.tidy

/-- C6: in a `decompress` run in which a decode step reports an engine error, the
call returns failure, the trace ends on that failing engine call (so its output is
not written and no reader, engine or writer call follows it), `error` is the
engine's description of its code, and before it every engine call returned no error
and is followed by the writer call for its output. -/
theorem decode_failure_immediate {σ ρ : Type} (E : DEngine σ) (in_fn : Reader ρ) (zs0 : ZSObj)
    (rd : ρ) (maxlen fuel : Nat)
    (h : ∃ e ∈ (decompress E in_fn zs0 rd maxlen fuel).trace, e.fault E.ZSTD_isError = true) :
    (decompress E in_fn zs0 rd maxlen fuel).status = Status.failure ∧
      ∃ pre input pos out code,
        (decompress E in_fn zs0 rd maxlen fuel).trace =
          pre ++ [Event.decode input pos out code] ∧
        E.ZSTD_isError code = true ∧
        (decompress E in_fn zs0 rd maxlen fuel).error = E.ZSTD_getErrorName code ∧
        paired pre = true ∧ (∀ e ∈ pre, e.fault E.ZSTD_isError = false) := by
  revert h
  unfold decompress
  split
  · rintro ⟨e, he, _⟩
    simp [ZSObj.fail] at he
  · rename_i dctx _
    obtain ⟨k1, k2⟩ := readLoop_shape E in_fn maxlen { zs0 with error := "" } fuel rd dctx 0 true
    rintro ⟨e, he, hf⟩
    by_cases hst : (readLoop E in_fn maxlen { zs0 with error := "" } fuel rd dctx 0 true).status =
        Status.failure
    · refine ⟨hst, ?_⟩
      rcases k1 hst with ⟨_, _, len, ret, buf, e1, _⟩ | ⟨pre, i, p, o, c, e1, e2, e3, e4⟩
      · rw [e1] at he
        simp at he
        rw [he] at hf
        simp [Event.fault] at hf
      · exact ⟨pre, i, p, o, c, e1, e2, e3, e4.1, e4.2⟩
    · have := (k2 hst).2 e he
      rw [this] at hf
      cases hf

theorem decode_failure_immediate_witness :
    (∃ e ∈ (decompress Toy.dengine fileReader { error := "old" } [1, 7, 5, 9] unbounded 4).trace,
        e.fault Toy.dengine.ZSTD_isError = true) ∧
      (decompress Toy.dengine fileReader { error := "old" } [1, 7, 5, 9] unbounded 4).status =
        Status.failure :=
  ⟨by decide,
    (decode_failure_immediate Toy.dengine fileReader { error := "old" } [1, 7, 5, 9] unbounded 4
      (by decide)).1⟩

/-! ## Empty input and end of input -/

theorem snoc_inj {α : Type} {a b : List α} {x y : α} (h : a ++ [x] = b ++ [y]) :
    a = b ∧ x = y := by
  obtain ⟨h1, h2⟩ := List.append_inj' h rfl
  exact ⟨h1, by simpa using h2⟩

theorem readLoop_head {σ ρ : Type} (E : DEngine σ) (in_fn : Reader ρ) (maxlen : Nat)
    (zs : ZSObj) (fuel : Nat) (rd : ρ) (dctx : σ) (total : Nat) (isEmpty : Bool) :
    ∃ rest, (readLoop E in_fn maxlen zs (fuel + 1) rd dctx total isEmpty).trace =
      Event.read (toInt E.ZSTD_DStreamInSize) (in_fn rd (toInt E.ZSTD_DStreamInSize)).ret
        (in_fn rd (toInt E.ZSTD_DStreamInSize)).buf :: rest := by
  simp only [readLoop]
  split
  · exact ⟨_, rfl⟩
  · split <;> exact ⟨_, rfl⟩

/-- C7: once the decode session exists, `decompress` fails with the error string
"input is empty" exactly when the first reader call returns less than 1; the trace
is then that single reader call: no engine call, no writer call.  The engine's
error descriptions are taken to differ from the literal "input is empty". -/
theorem empty_input_iff {σ ρ : Type} (E : DEngine σ) (in_fn : Reader ρ) (zs0 : ZSObj) (rd : ρ)
    (maxlen fuel : Nat) (dctx : σ) (hc : E.ZSTD_createDCtx = some dctx)
    (hname : ∀ c, E.ZSTD_isError c = true → E.ZSTD_getErrorName c ≠ "input is empty") :
    (((decompress E in_fn zs0 rd maxlen (fuel + 1)).status = Status.failure ∧
        (decompress E in_fn zs0 rd maxlen (fuel + 1)).error = "input is empty") ↔
      (in_fn rd (toInt E.ZSTD_DStreamInSize)).ret < 1) ∧
    ((in_fn rd (toInt E.ZSTD_DStreamInSize)).ret < 1 →
      (decompress E in_fn zs0 rd maxlen (fuel + 1)).trace =
        [Event.read (toInt E.ZSTD_DStreamInSize) (in_fn rd (toInt E.ZSTD_DStreamInSize)).ret
          (in_fn rd (toInt E.ZSTD_DStreamInSize)).buf]) := by
  have hd : decompress E in_fn zs0 rd maxlen (fuel + 1) =
      readLoop E in_fn maxlen { zs0 with error := "" } (fuel + 1) rd dctx 0 true := by
    simp [decompress, hc]
  rw [hd]
  by_cases hret : (in_fn rd (toInt E.ZSTD_DStreamInSize)).ret < 1
  · simp [readLoop, hret, decompressDone, ZSObj.fail, Run.pre]
  · refine ⟨⟨fun h => ?_, fun h => absurd h hret⟩, fun h => absurd h hret⟩
    exfalso
    obtain ⟨k1, _⟩ := readLoop_shape E in_fn maxlen { zs0 with error := "" } (fuel + 1) rd dctx 0
      true
    obtain ⟨rest, hrest⟩ := readLoop_head E in_fn maxlen { zs0 with error := "" } fuel rd dctx 0
      true
    rcases k1 h.1 with ⟨_, _, len, ret, buf, e1, e2⟩ | ⟨pre, i, p, o, c, _, e2, e3, _⟩
    · rw [hrest] at e1
      simp only [List.cons.injEq, Event.read.injEq] at e1
      rw [e1.1.2.1] at hret
      exact hret e2
    · exact hname c e2 (e3.symm.trans h.2)

theorem empty_input_iff_witness :
    Toy.dengine.ZSTD_createDCtx = some Toy.Phase.tag ∧
      (∀ c, Toy.dengine.ZSTD_isError c = true →
        Toy.dengine.ZSTD_getErrorName c ≠ "input is empty") ∧
      (decompress Toy.dengine fileReader { error := "old" } [] unbounded 1).status =
        Status.failure ∧
      (decompress Toy.dengine fileReader { error := "old" } [] unbounded 1).error =
        "input is empty" :=
  have hn : ∀ c, Toy.dengine.ZSTD_isError c = true →
      Toy.dengine.ZSTD_getErrorName c ≠ "input is empty" := by
    intro c _
    show Toy.getErrorName c ≠ "input is empty"
    unfold Toy.getErrorName
    split <;> decide
  ⟨rfl, hn,
    ((empty_input_iff Toy.dengine fileReader { error := "old" } [] unbounded 0 Toy.Phase.tag rfl
      hn).1.2 (by decide)).1,
    ((empty_input_iff Toy.dengine fileReader { error := "old" } [] unbounded 0 Toy.Phase.tag rfl
      hn).1.2 (by decide)).2⟩

theorem readLoop_eof {σ ρ : Type} (E : DEngine σ) (in_fn : Reader ρ) (maxlen : Nat)
    (zs : ZSObj) (len ret : Int) (buf : List Byte) (hret : ret < 1) (fuel : Nat) :
    ∀ (rd : ρ) (dctx : σ) (total : Nat) (isEmpty : Bool) (pre : List Event),
    (readLoop E in_fn maxlen zs fuel rd dctx total isEmpty).trace =
      pre ++ [Event.read len ret buf] →
    ((readLoop E in_fn maxlen zs fuel rd dctx total isEmpty).status = Status.success ∧
      (readLoop E in_fn maxlen zs fuel rd dctx total isEmpty).error = zs.error) ∨
    (isEmpty = true ∧ pre = []) := by
  induction fuel with
  | zero =>
    intro rd dctx total isEmpty pre h
    simp [readLoop, ZSObj.spin] at h
  | succ n ih =>
    intro rd dctx total isEmpty pre
    have hs := decodeLoop_shape E maxlen n dctx
      { src := (in_fn rd (toInt E.ZSTD_DStreamInSize)).buf,
        size := toSizeT (in_fn rd (toInt E.ZSTD_DStreamInSize)).ret, pos := 0 } total
    have key : ∀ tr : List Event, (∀ e ∈ tr, e.isRead = false) →
        ¬ (in_fn rd (toInt E.ZSTD_DStreamInSize)).ret < 1 →
        Event.read (toInt E.ZSTD_DStreamInSize) (in_fn rd (toInt E.ZSTD_DStreamInSize)).ret
          (in_fn rd (toInt E.ZSTD_DStreamInSize)).buf :: tr ≠ pre ++ [Event.read len ret buf] := by
      intro tr htr hge h
      rcases List.eq_nil_or_concat tr with rfl | ⟨tr1, e, rfl⟩
      · have h2 := snoc_inj (a := []) h
        simp only [Event.read.injEq] at h2
        rw [h2.2.2.1] at hge
        exact hge hret
      · have h2 := snoc_inj (a := _ :: tr1) (by simpa using h)
        have := htr e (by simp)
        rw [h2.2] at this
        simp [Event.isRead] at this
    simp only [readLoop]
    split
    · intro h
      cases isEmpty with
      | true =>
        right
        have h2 := snoc_inj (a := []) h
        exact ⟨rfl, h2.1.symm⟩
      | false =>
        left
        exact ⟨rfl, rfl⟩
    · rename_i hge
      split
      · rename_i msg tr heq
        rw [heq] at hs
        obtain ⟨p1, i, p, o, c, rfl, _, _, _⟩ := hs
        intro h
        have h2 := snoc_inj (a := _ :: p1) (by simpa [ZSObj.fail] using h)
        cases h2.2
      · rename_i tr heq
        rw [heq] at hs
        intro h
        exact absurd (by simpa [decompressDone, ZSObj.succeed] using h) (key tr hs.1.2.2 hge)
      · rename_i dctx1 total1 tr heq
        rw [heq] at hs
        intro h
        simp only [Run.pre_trace] at h
        rcases List.eq_nil_or_concat
          (readLoop E in_fn maxlen zs n (in_fn rd (toInt E.ZSTD_DStreamInSize)).next dctx1 total1
            false).trace with h0 | ⟨r1, e, h0⟩
        · rw [h0] at h
          exact absurd (by simpa using h) (key tr hs.2.2 hge)
        · rw [h0] at h
          have h2 := snoc_inj (a := _ :: (tr ++ r1)) (by simpa using h)
          rw [h2.2] at h0
          rcases ih _ _ _ false r1 (by simpa using h0) with h3 | ⟨h3, _⟩
          · left
            simpa using h3
          · cases h3
      · rename_i tr heq
        rw [heq] at hs
        intro h
        exact absurd (by simpa [ZSObj.spin] using h) (key tr hs.2.2 hge)

/-- C5, as the code has it: when the reader reports end of input after a decode
step, `decompress` returns success and leaves `error` empty, whatever the last
step's return value said of the bytes still expected; a short input is rejected
only through an engine error on a decode step. -/
theorem eof_after_step_succeeds {σ ρ : Type} (E : DEngine σ) (in_fn : Reader ρ) (zs0 : ZSObj)
    (rd : ρ) (maxlen fuel : Nat) (pre : List Event) (len ret : Int) (buf : List Byte)
    (hlast : (decompress E in_fn zs0 rd maxlen fuel).trace = pre ++ [Event.read len ret buf])
    (hret : ret < 1)
    (hstep : ∃ e ∈ (decompress E in_fn zs0 rd maxlen fuel).trace, e.isStep = true) :
    (decompress E in_fn zs0 rd maxlen fuel).status = Status.success ∧
      (decompress E in_fn zs0 rd maxlen fuel).error = "" := by
  revert hlast hstep
  unfold decompress
  split
  · intro h
    simp [ZSObj.fail] at h
  · rename_i dctx _
    intro h hstep
    rcases readLoop_eof E in_fn maxlen { zs0 with error := "" } len ret buf hret fuel rd dctx 0
      true pre h with h1 | ⟨_, h1⟩
    · exact h1
    · rw [h, h1] at hstep
      simp [Event.isStep] at hstep

theorem eof_after_step_succeeds_witness :
    (decompress Toy.dengine fileReader { error := "old" } [1, 7, 1, 8] unbounded 4).trace =
        [Event.read 3 3 [1, 7, 1],
          Event.decode { src := [1, 7, 1], size := 3, pos := 0 } 1 [] 1, Event.write [] 0,
          Event.decode { src := [1, 7, 1], size := 3, pos := 1 } 2 [7] 1, Event.write [7] 1,
          Event.decode { src := [1, 7, 1], size := 3, pos := 2 } 3 [] 1, Event.write [] 0,
          Event.read 3 1 [8],
          Event.decode { src := [8], size := 1, pos := 0 } 1 [8] 1, Event.write [8] 1] ++
        [Event.read 3 0 []] ∧
      (decompress Toy.dengine fileReader { error := "old" } [1, 7, 1, 8] unbounded 4).status =
        Status.success ∧
      (decompress Toy.dengine fileReader { error := "old" } [1, 7, 1, 8] unbounded 4).error = "" :=
  ⟨by decide,
    eof_after_step_succeeds Toy.dengine fileReader { error := "old" } [1, 7, 1, 8] unbounded 4
      [Event.read 3 3 [1, 7, 1],
        Event.decode { src := [1, 7, 1], size := 3, pos := 0 } 1 [] 1, Event.write [] 0,
        Event.decode { src := [1, 7, 1], size := 3, pos := 1 } 2 [7] 1, Event.write [7] 1,
        Event.decode { src := [1, 7, 1], size := 3, pos := 2 } 3 [] 1, Event.write [] 0,
        Event.read 3 1 [8],
        Event.decode { src := [8], size := 1, pos := 0 } 1 [8] 1, Event.write [8] 1]
      3 0 [] (by decide) (by decide) (by decide)⟩

/-- C5 fails as stated: the frame of `[7, 8]` is `[1, 7, 1, 8, 0]`; on its first
four bytes the last decode step returns 1 (no error, one more byte expected), the
next read returns 0, and `decompress` returns success with `error` empty. -/
theorem truncated_input_accepted :
    Toy.frame [7, 8] = [1, 7, 1, 8] ++ [0] ∧
      decompress Toy.dengine fileReader { error := "" } [1, 7, 1, 8] unbounded 4 =
        { status := Status.success, error := "", errorSets := [],
          trace := [Event.read 3 3 [1, 7, 1],
            Event.decode { src := [1, 7, 1], size := 3, pos := 0 } 1 [] 1, Event.write [] 0,
            Event.decode { src := [1, 7, 1], size := 3, pos := 1 } 2 [7] 1, Event.write [7] 1,
            Event.decode { src := [1, 7, 1], size := 3, pos := 2 } 3 [] 1, Event.write [] 0,
            Event.read 3 1 [8],
            Event.decode { src := [8], size := 1, pos := 0 } 1 [8] 1, Event.write [8] 1,
            Event.read 3 0 []] } ∧
      Toy.dengine.ZSTD_isError 1 = false := by
  decide

/-! ## The length cap -/

theorem given_write {out : List Byte} (h : out.length < 2 ^ 31) :
    (Event.write out (toInt out.length)).given = out := by
  simp [Event.given, toInt_of_lt h]

theorem DInner.pre_eq_drained {σ : Type} {es : List Event} {x : DInner σ} {d : σ} {t : Nat}
    {tr : List Event} (h : x.pre es = DInner.drained d t tr) :
    ∃ tr1, x = DInner.drained d t tr1 ∧ tr = es ++ tr1 := by
  cases x with
  | failed msg tr0 => simp [DInner.pre] at h
  | capped tr0 => simp [DInner.pre] at h
  | drained d0 t0 tr0 =>
    simp only [DInner.pre, DInner.drained.injEq] at h
    obtain ⟨rfl, rfl, rfl⟩ := h
    exact ⟨tr0, rfl, rfl⟩
  | running tr0 => simp [DInner.pre] at h

theorem decodeLoop_unbounded_not_capped {σ : Type} (E : DEngine σ) (fuel : Nat) :
    ∀ (dctx : σ) (input : ZSTD_inBuffer) (total : Nat) (tr : List Event),
    decodeLoop E unbounded fuel dctx input total ≠ DInner.capped tr := by
  induction fuel with
  | zero =>
    intro dctx input total tr
    simp only [decodeLoop]
    split <;> simp
  | succ n ih =>
    intro dctx input total tr
    simp only [decodeLoop]
    split
    · split
      · simp
      · rw [if_neg (by simp)]
        intro h
        generalize hx : decodeLoop E unbounded n _ _ _ = x at h
        cases x with
        | failed msg tr0 => simp [DInner.pre] at h
        | capped tr0 => exact ih _ _ _ _ hx
        | drained d0 t0 tr0 => simp [DInner.pre] at h
        | running tr0 => simp [DInner.pre] at h
    · simp

theorem written_step {input : ZSTD_inBuffer} {pos : Nat} {out : List Byte} {ret : Nat}
    (h : out.length < 2 ^ 31) (tr : List Event) :
    written (Event.decode input pos out ret :: Event.write out (toInt out.length) :: tr) =
      out ++ written tr := by
  rw [written_cons, written_cons, given_write h]
  simp [Event.given]

theorem total_step {out : List Byte} (h : out.length < 2 ^ 31) {total : Nat}
    (h1 : total + out.length < 2 ^ 64) :
    (total + toSizeT (toInt out.length)) % 2 ^ 64 = total + out.length := by
  rw [toSizeT_toInt h]
  exact Nat.mod_eq_of_lt h1

/-- The accumulator `total` of the inner loop, when it does not wrap. -/
theorem decodeLoop_total {σ : Type} (E : DEngine σ) (hout : E.ZSTD_DStreamOutSize < 2 ^ 31)
    (hcap : ∀ s input, (E.ZSTD_decompressStream s E.ZSTD_DStreamOutSize input).out.length ≤
      E.ZSTD_DStreamOutSize)
    (maxlen : Nat) (fuel : Nat) :
    ∀ (dctx : σ) (input : ZSTD_inBuffer) (total : Nat) (dctx1 : σ) (total1 : Nat)
      (tr : List Event),
    decodeLoop E maxlen fuel dctx input total = DInner.drained dctx1 total1 tr →
    total + (written tr).length < 2 ^ 64 → total1 = total + (written tr).length := by
  induction fuel with
  | zero =>
    intro dctx input total dctx1 total1 tr
    simp only [decodeLoop]
    split
    · simp
    · intro h h1
      simp only [DInner.drained.injEq] at h
      obtain ⟨rfl, rfl, rfl⟩ := h
      simp
  | succ n ih =>
    intro dctx input total dctx1 total1 tr
    have hol := hcap dctx input
    simp only [decodeLoop]
    generalize E.ZSTD_decompressStream dctx E.ZSTD_DStreamOutSize input = r at hol ⊢
    have hlt : r.out.length < 2 ^ 31 := lt_of_le_of_lt hol hout
    split
    · split
      · simp
      · split
        · simp
        · intro h h1
          obtain ⟨tr1, hx, rfl⟩ := DInner.pre_eq_drained h
          simp only [List.singleton_append, List.cons_append, List.nil_append,
            written_step hlt, List.length_append] at h1 ⊢
          rw [total_step hlt (by omega)] at hx
          have := ih _ _ _ _ _ _ hx (by omega)
          omega
    · intro h h1
      simp only [DInner.drained.injEq] at h
      obtain ⟨rfl, rfl, rfl⟩ := h
      simp

/-- The inner loop under a cap `k`, against the same loop without a cap. -/
theorem decodeLoop_cap {σ : Type} (E : DEngine σ) (hout : E.ZSTD_DStreamOutSize < 2 ^ 31)
    (hcap : ∀ s input, (E.ZSTD_decompressStream s E.ZSTD_DStreamOutSize input).out.length ≤
      E.ZSTD_DStreamOutSize)
    (k : Nat) (hk : k ≠ unbounded) (fuel : Nat) :
    ∀ (dctx : σ) (input : ZSTD_inBuffer) (total : Nat) (dctx1 : σ) (total1 : Nat)
      (tr : List Event),
    decodeLoop E unbounded fuel dctx input total = DInner.drained dctx1 total1 tr →
    total + (written tr).length < 2 ^ 64 → total < k →
    ((total + (written tr).length < k ∧
        decodeLoop E k fuel dctx input total = DInner.drained dctx1 total1 tr) ∨
      (∃ pre i p o c rest,
        decodeLoop E k fuel dctx input total =
          DInner.capped (pre ++ [Event.decode i p o c, Event.write o (toInt o.length)]) ∧
        tr = pre ++ [Event.decode i p o c, Event.write o (toInt o.length)] ++ rest ∧
        total + (written pre).length < k ∧ k ≤ total + (written pre).length + o.length ∧
        o.length ≤ E.ZSTD_DStreamOutSize)) := by
  induction fuel with
  | zero =>
    intro dctx input total dctx1 total1 tr
    simp only [decodeLoop]
    split
    · simp
    · intro h h1 h2
      simp only [DInner.drained.injEq] at h
      obtain ⟨rfl, rfl, rfl⟩ := h
      exact Or.inl ⟨by simpa using h2, rfl⟩
  | succ n ih =>
    intro dctx input total dctx1 total1 tr
    have hol := hcap dctx input
    simp only [decodeLoop]
    generalize E.ZSTD_decompressStream dctx E.ZSTD_DStreamOutSize input = r at hol ⊢
    have hlt : r.out.length < 2 ^ 31 := lt_of_le_of_lt hol hout
    split
    · split
      · simp
      · rw [if_neg (by simp)]
        intro h h1 h2
        obtain ⟨tr1, hx, rfl⟩ := DInner.pre_eq_drained h
        simp only [List.singleton_append, List.cons_append, List.nil_append,
          written_step hlt, List.length_append] at h1 ⊢
        rw [total_step hlt (by omega)] at hx ⊢
        by_cases hge : k ≤ total + r.out.length
        · rw [if_pos ⟨hk, hge⟩]
          exact Or.inr ⟨[], input, r.pos, r.out, r.ret, tr1, rfl, rfl, by simpa using h2,
            by simpa using hge, hol⟩
        · rw [if_neg (by simp [hge])]
          rcases ih _ _ _ _ _ _ hx (by omega) (by omega) with ⟨e1, e2⟩ |
            ⟨pre, i, p, o, c, rest, e1, e2, e3, e4, e5⟩
          · left
            refine ⟨by omega, ?_⟩
            rw [e2]
            rfl
          · right
            refine ⟨Event.decode input r.pos r.out r.ret ::
              Event.write r.out (toInt r.out.length) :: pre, i, p, o, c, rest, ?_, ?_, ?_, ?_, e5⟩
            · rw [e1]
              rfl
            · rw [e2]
              rfl
            · rw [written_step hlt, List.length_append]
              omega
            · rw [written_step hlt, List.length_append]
              omega
    · intro h h1 h2
      simp only [DInner.drained.injEq] at h
      obtain ⟨rfl, rfl, rfl⟩ := h
      exact Or.inl ⟨by simpa using h2, rfl⟩

/-- The outer loop under a cap `k`, against the same loop without a cap. -/
theorem readLoop_cap {σ ρ : Type} (E : DEngine σ) (in_fn : Reader ρ) (zs : ZSObj)
    (hout : E.ZSTD_DStreamOutSize < 2 ^ 31)
    (hcap : ∀ s input, (E.ZSTD_decompressStream s E.ZSTD_DStreamOutSize input).out.length ≤
      E.ZSTD_DStreamOutSize)
    (k : Nat) (hk : k ≠ unbounded) (fuel : Nat) :
    ∀ (rd : ρ) (dctx : σ) (total : Nat) (isEmpty : Bool),
    (readLoop E in_fn unbounded zs fuel rd dctx total isEmpty).status = Status.success →
    total + (written (readLoop E in_fn unbounded zs fuel rd dctx total isEmpty).trace).length <
      2 ^ 64 →
    total < k →
    k < total + (written (readLoop E in_fn unbounded zs fuel rd dctx total isEmpty).trace).length →
    (readLoop E in_fn k zs fuel rd dctx total isEmpty).status = Status.success ∧
      ∃ pre i p o c rest,
        (readLoop E in_fn k zs fuel rd dctx total isEmpty).trace =
          pre ++ [Event.decode i p o c, Event.write o (toInt o.length)] ∧
        (readLoop E in_fn unbounded zs fuel rd dctx total isEmpty).trace =
          pre ++ [Event.decode i p o c, Event.write o (toInt o.length)] ++ rest ∧
        total + (written pre).length < k ∧ k ≤ total + (written pre).length + o.length ∧
        o.length ≤ E.ZSTD_DStreamOutSize := by
  induction fuel with
  | zero =>
    intro rd dctx total isEmpty h
    simp [readLoop, ZSObj.spin] at h
  | succ n ih =>
    intro rd dctx total isEmpty
    simp only [readLoop]
    generalize in_fn rd (toInt E.ZSTD_DStreamInSize) = x
    split
    · intro _ _ h2 h3
      have hd : (decompressDone zs isEmpty).trace = [] := by
        unfold decompressDone
        split <;> rfl
      simp [Event.given, hd] at h3
      omega
    · generalize hu : decodeLoop E unbounded n dctx
        { src := x.buf, size := toSizeT x.ret, pos := 0 } total = u
      cases u with
      | failed msg tr => 
        intro h
        simp [ZSObj.fail] at h
      | capped tr => exact absurd hu (decodeLoop_unbounded_not_capped E n _ _ _ _)
      | running tr =>
        intro h
        simp [ZSObj.spin] at h
      | drained dctx1 total1 tr =>
        simp only [Run.pre_status, Run.pre_trace, List.cons_append, written_cons, Event.given,
          List.nil_append, written_append, List.length_append]
        intro h0 h1 h2 h3
        have ht := decodeLoop_total E hout hcap unbounded n _ _ _ _ _ _ hu (by omega)
        rcases decodeLoop_cap E hout hcap k hk n _ _ _ _ _ _ hu (by omega) h2 with ⟨e1, e2⟩ |
            ⟨pre, i, p, o, c, rest, e1, e2, e3, e4, e5⟩
        · rw [e2]
          simp only [Run.pre_status, Run.pre_trace]
          obtain ⟨g0, pre, i, p, o, c, rest, g1, g2, g3, g4, g5⟩ :=
            ih x.next dctx1 total1 false h0 (by omega) (by omega) (by omega)
          refine ⟨g0, Event.read (toInt E.ZSTD_DStreamInSize) x.ret x.buf :: (tr ++ pre),
            i, p, o, c, rest, ?_, ?_, ?_, ?_, g5⟩
          · rw [g1]
            simp
          · rw [g2]
            simp
          · simp [Event.given]
            omega
          · simp [Event.given]
            omega
        · rw [e1]
          refine ⟨rfl, Event.read (toInt E.ZSTD_DStreamInSize) x.ret x.buf :: pre,
            i, p, o, c,
            rest ++ (readLoop E in_fn unbounded zs n x.next dctx1 total1 false).trace,
            ?_, ?_, ?_, ?_, e5⟩
          · simp [decompressDone, ZSObj.succeed]
          · rw [e2]
            simp
          · simpa [Event.given] using e3
          · simpa [Event.given] using e4

/-- C2: with a cap `k > 0` on a payload whose uncapped `decompress` run succeeds and
writes more than `k` bytes (fewer than `2 ^ 64`), the capped run returns success,
hands the writer at least `k` and at most `k` plus one output block of bytes, and
its trace is a prefix of the uncapped trace that ends with the decode step, and
its writer call, at which the total first reaches `k`. -/
theorem length_cap {σ ρ : Type} (E : DEngine σ) (in_fn : Reader ρ) (zs0 : ZSObj) (rd : ρ)
    (k fuel : Nat) (hout : E.ZSTD_DStreamOutSize < 2 ^ 31)
    (hcap : ∀ s input, (E.ZSTD_decompressStream s E.ZSTD_DStreamOutSize input).out.length ≤
      E.ZSTD_DStreamOutSize)
    (hk : 0 < k)
    (hok : (decompress E in_fn zs0 rd unbounded fuel).status = Status.success)
    (hmore : k < (written (decompress E in_fn zs0 rd unbounded fuel).trace).length)
    (hfit : (written (decompress E in_fn zs0 rd unbounded fuel).trace).length < 2 ^ 64) :
    (decompress E in_fn zs0 rd k fuel).status = Status.success ∧
      k ≤ (written (decompress E in_fn zs0 rd k fuel).trace).length ∧
      (written (decompress E in_fn zs0 rd k fuel).trace).length ≤ k + E.ZSTD_DStreamOutSize ∧
      ∃ pre input pos out ret rest,
        (decompress E in_fn zs0 rd k fuel).trace =
          pre ++ [Event.decode input pos out ret, Event.write out (toInt out.length)] ∧
        (decompress E in_fn zs0 rd unbounded fuel).trace =
          (decompress E in_fn zs0 rd k fuel).trace ++ rest ∧
        (written pre).length < k := by
  revert hok hmore hfit
  unfold decompress
  split
  · intro h
    simp [ZSObj.fail] at h
  · rename_i dctx _
    intro hok hmore hfit
    dsimp only at hok hmore hfit ⊢
    have hku : k ≠ unbounded := by
      unfold unbounded
      omega
    obtain ⟨g0, pre, i, p, o, c, rest, g1, g2, g3, g4, g5⟩ :=
      readLoop_cap E in_fn { zs0 with error := "" } hout hcap k hku fuel rd dctx 0 true hok
        (by omega) hk (by omega)
    have hlt : o.length < 2 ^ 31 := lt_of_le_of_lt g5 hout
    have hw : (written (pre ++ [Event.decode i p o c, Event.write o (toInt o.length)])).length =
        (written pre).length + o.length := by
      rw [written_append, written_step hlt]
      simp
    refine ⟨g0, ?_, ?_, pre, i, p, o, c, rest, g1, ?_, by omega⟩
    · rw [g1, hw]
      omega
    · rw [g1, hw]
      omega
    · rw [g2, g1]

theorem Toy.decodeStep_out_le (ph : Toy.Phase) (cap : Nat) (input : ZSTD_inBuffer) :
    (Toy.decodeStep ph cap input).out.length ≤ 1 := by
  unfold Toy.decodeStep
  split
  · simp
  · cases ph with
    | tag =>
      dsimp only
      split
      · simp
      · split <;> simp
    | payload => simp
    | closed => simp

theorem length_cap_witness :
    (decompress Toy.dengine fileReader { error := "" } (Toy.frame [7, 8, 9]) unbounded 6).status =
        Status.success ∧
      written (decompress Toy.dengine fileReader { error := "" } (Toy.frame [7, 8, 9])
        unbounded 6).trace = [7, 8, 9] ∧
      (decompress Toy.dengine fileReader { error := "" } (Toy.frame [7, 8, 9]) 2 6).status =
        Status.success ∧
      2 ≤ (written (decompress Toy.dengine fileReader { error := "" } (Toy.frame [7, 8, 9])
        2 6).trace).length :=
  have h := length_cap Toy.dengine fileReader { error := "" } (Toy.frame [7, 8, 9]) 2 6
    (by decide) (fun s input => le_trans (Toy.decodeStep_out_le s 2 input) (by decide))
    (by decide) (by decide) (by decide) (by decide)
  ⟨by decide, by decide, h.1, h.2.1⟩

/-- C10 on the code: when the reader returns `-1`, `compress` hands the engine an
input view of `2 ^ 64 - 1` bytes over a buffer of 2, with the end directive. -/
theorem negative_read_view :
    Toy.cengine.ZSTD_CStreamInSize = 2 ∧
      (failingReader () (toInt Toy.cengine.ZSTD_CStreamInSize)).ret = -1 ∧
      (compress Toy.cengine failingReader { error := "" } () 2).trace =
        [Event.read 2 (-1) [],
          Event.encode { src := [], size := 18446744073709551615, pos := 0 }
            ZSTD_EndDirective.ZSTD_e_end 0 [0] 0,
          Event.write [0] 1] := by
  decide

/-! ## The inner loop of `compress` -/

theorem slice_append {input : ZSTD_inBuffer} {a b c : Nat} (hab : a ≤ b) (hbc : b ≤ c)
    (hc : c ≤ input.size) (hs : input.size ≤ input.src.length) :
    input.slice a b ++ input.slice b c = input.slice a c := by
  unfold ZSTD_inBuffer.slice
  generalize hl : input.src.take input.size = l
  have hlen : l.length = input.size := by
    rw [← hl, List.length_take]
    omega
  have h1 : l.take c = l.take b ++ (l.take c).drop b := by
    conv_lhs => rw [← List.take_append_drop b (l.take c)]
    rw [List.take_take, Nat.min_eq_left hbc]
  conv_rhs => rw [h1]
  rw [List.drop_append_of_le_length (by rw [List.length_take]; omega)]

theorem slice_self (input : ZSTD_inBuffer) (a : Nat) : input.slice a a = [] := by
  unfold ZSTD_inBuffer.slice
  rw [List.drop_eq_nil_iff]
  rw [List.length_take]
  omega

theorem slice_pos (input : ZSTD_inBuffer) (p a b : Nat) :
    ({ input with pos := p } : ZSTD_inBuffer).slice a b = input.slice a b := rfl

theorem encodeLoop_done {σ : Type} (E : CEngine σ) (last : Bool) (mode : ZSTD_EndDirective)
    (f : Nat) (s : σ) (input : ZSTD_inBuffer) (r : StepResult σ)
    (hr : E.ZSTD_compressStream2 s E.ZSTD_CStreamOutSize input mode = r)
    (h1 : E.ZSTD_isError r.ret = false)
    (hfin : finished last r.ret { input with pos := r.pos } = true) :
    encodeLoop E last mode (f + 1) s input =
      CInner.finished r.ctx { input with pos := r.pos }
        [Event.encode input mode r.pos r.out r.ret, Event.write r.out (toInt r.out.length)] := by
  subst hr
  simp [encodeLoop, h1, hfin]

theorem encodeLoop_more {σ : Type} (E : CEngine σ) (last : Bool) (mode : ZSTD_EndDirective)
    (f : Nat) (s : σ) (input : ZSTD_inBuffer) (r : StepResult σ)
    (hr : E.ZSTD_compressStream2 s E.ZSTD_CStreamOutSize input mode = r)
    (h1 : E.ZSTD_isError r.ret = false)
    (hfin : finished last r.ret { input with pos := r.pos } = false) :
    encodeLoop E last mode (f + 1) s input =
      (encodeLoop E last mode f r.ctx { input with pos := r.pos }).pre
        [Event.encode input mode r.pos r.out r.ret, Event.write r.out (toInt r.out.length)] := by
  subst hr
  simp [encodeLoop, h1, hfin]

/-- Under the engine contract the inner loop of `compress` returns, with the same
result for every fuel above the bound `m` on `μ`. -/
theorem encodeLoop_finishes {σ : Type} (E : CEngine σ) (μ : Bool → σ → ZSTD_inBuffer → Nat)
    (hlive : E.Live μ) (last : Bool) (m : Nat) :
    ∀ (s : σ) (input : ZSTD_inBuffer), input.Valid → μ last s input ≤ m →
    ∃ s1 input1 tr, ∀ fuel, m < fuel →
      encodeLoop E last (directive last) fuel s input = CInner.finished s1 input1 tr := by
  induction m with
  | zero =>
    intro s input hv hm
    obtain ⟨h1, h2, h3, h4, h5, h6⟩ := hlive last s input hv
    generalize hr : E.ZSTD_compressStream2 s E.ZSTD_CStreamOutSize input (directive last) = r
      at h1 h2 h3 h4 h5 h6
    by_cases hfin : finished last r.ret { input with pos := r.pos } = true
    · refine ⟨r.ctx, { input with pos := r.pos },
        [Event.encode input (directive last) r.pos r.out r.ret,
          Event.write r.out (toInt r.out.length)], fun fuel hf => ?_⟩
      obtain ⟨f, rfl⟩ : ∃ f, fuel = f + 1 := ⟨fuel - 1, by omega⟩
      exact encodeLoop_done E last _ f s input r hr h1 hfin
    · have := h6 (by simpa using hfin)
      omega
  | succ m ih =>
    intro s input hv hm
    obtain ⟨h1, h2, h3, h4, h5, h6⟩ := hlive last s input hv
    generalize hr : E.ZSTD_compressStream2 s E.ZSTD_CStreamOutSize input (directive last) = r
      at h1 h2 h3 h4 h5 h6
    by_cases hfin : finished last r.ret { input with pos := r.pos } = true
    · refine ⟨r.ctx, { input with pos := r.pos },
        [Event.encode input (directive last) r.pos r.out r.ret,
          Event.write r.out (toInt r.out.length)], fun fuel hf => ?_⟩
      obtain ⟨f, rfl⟩ : ∃ f, fuel = f + 1 := ⟨fuel - 1, by omega⟩
      exact encodeLoop_done E last _ f s input r hr h1 hfin
    · have hfin2 : finished last r.ret { input with pos := r.pos } = false := by simpa using hfin
      have hlt := h6 hfin2
      obtain ⟨s1, input1, tr, hrec⟩ := ih r.ctx { input with pos := r.pos } ⟨h3, hv.2⟩ (by omega)
      refine ⟨s1, input1, [Event.encode input (directive last) r.pos r.out r.ret,
          Event.write r.out (toInt r.out.length)] ++ tr, fun fuel hf => ?_⟩
      obtain ⟨f, rfl⟩ : ∃ f, fuel = f + 1 := ⟨fuel - 1, by omega⟩
      rw [encodeLoop_more E last _ f s input r hr h1 hfin2, hrec f (by omega)]
      rfl

/-- What a returned inner loop of `compress` did, under the engine contract: it
left the view consumed, the engine consumed exactly the rest of the view, and the
calls follow the protocol for one chunk. -/
theorem encodeLoop_sound {σ : Type} (E : CEngine σ) (μ : Bool → σ → ZSTD_inBuffer → Nat)
    (hlive : E.Live μ) (hout : E.ZSTD_CStreamOutSize < 2 ^ 31) (cap : Int) (last : Bool)
    (fuel : Nat) :
    ∀ (s : σ) (input : ZSTD_inBuffer) (s1 : σ) (input1 : ZSTD_inBuffer) (tr : List Event),
    input.Valid →
    encodeLoop E last (directive last) fuel s input = CInner.finished s1 input1 tr →
    input1 = { input with pos := input.size } ∧
      consumed tr = input.slice input.pos input.size ∧
      (∀ e ∈ tr, e.isRead = false) ∧
      (∀ rest, conforms cap (Expect.stepping last input) (tr ++ rest) =
        conforms cap (if last then Expect.nothing else Expect.reading) rest) := by
  induction fuel with
  | zero =>
    intro s input s1 input1 tr _ h
    simp [encodeLoop] at h
  | succ f ih =>
    intro s input s1 input1 tr hv
    obtain ⟨h1, h2, h3, h4, h5, h6⟩ := hlive last s input hv
    generalize hr : E.ZSTD_compressStream2 s E.ZSTD_CStreamOutSize input (directive last) = r
      at h1 h2 h3 h4 h5 h6
    have hlen : toInt r.out.length = (r.out.length : Int) :=
      toInt_of_lt (lt_of_le_of_lt h4 hout)
    by_cases hfin : finished last r.ret { input with pos := r.pos } = true
    · rw [encodeLoop_done E last _ f s input r hr h1 hfin]
      intro h
      simp only [CInner.finished.injEq] at h
      obtain ⟨rfl, rfl, rfl⟩ := h
      have hp : r.pos = input.size := by
        cases last with
        | true => exact h5 rfl (by simpa [finished] using hfin)
        | false => simpa [finished] using hfin
      refine ⟨by rw [hp], ?_, ?_, ?_⟩
      · simp [Event.eaten, hp]
      · simp [Event.isRead]
      · intro rest
        cases last with
        | true =>
          have : r.ret = 0 := by simpa [finished] using hfin
          simp [conforms, hlen, this]
        | false =>
          simp [conforms, hlen, hp]
    · have hfin2 : finished last r.ret { input with pos := r.pos } = false := by simpa using hfin
      rw [encodeLoop_more E last _ f s input r hr h1 hfin2]
      intro h
      generalize hx : encodeLoop E last (directive last) f r.ctx { input with pos := r.pos } = x
        at h
      cases x with
      | failed msg tr0 => simp [CInner.pre] at h
      | running tr0 => simp [CInner.pre] at h
      | finished s2 input2 tr2 =>
        simp only [CInner.pre, CInner.finished.injEq] at h
        obtain ⟨rfl, rfl, rfl⟩ := h
        obtain ⟨g1, g2, g3, g4⟩ := ih r.ctx { input with pos := r.pos } _ _ _ ⟨h3, hv.2⟩ hx
        refine ⟨g1, ?_, ?_, ?_⟩
        · simp only [List.cons_append, List.nil_append, consumed_cons, Event.eaten, g2,
            List.append_nil, slice_pos]
          exact slice_append h2 h3 le_rfl hv.2
        · intro e he
          simp only [List.cons_append, List.nil_append, List.mem_cons] at he
          rcases he with rfl | rfl | he
          · rfl
          · rfl
          · exact g3 e he
        · intro rest
          cases last with
          | true =>
            have : r.ret ≠ 0 := by simpa [finished] using hfin2
            simp [conforms, hlen, this, g4]
          | false =>
            have : r.pos ≠ input.size := by simpa [finished] using hfin2
            simp [conforms, hlen, this, g4]

/-! ## The outer loop of `compress` -/

theorem chunkLoop_succ {σ ρ : Type} (E : CEngine σ) (in_fn : Reader ρ) (zs : ZSObj) (fuel : Nat)
    (rd : ρ) (cctx : σ) (x : ReadResult ρ) (hx : in_fn rd (toInt E.ZSTD_CStreamInSize) = x)
    (last : Bool) (hl : decide (x.ret < toInt E.ZSTD_CStreamInSize) = last)
    (s1 : σ) (input1 : ZSTD_inBuffer) (tr : List Event)
    (henc : encodeLoop E last (directive last) fuel cctx
      { src := x.buf, size := toSizeT x.ret, pos := 0 } = CInner.finished s1 input1 tr)
    (hp : input1.pos = input1.size) :
    chunkLoop E in_fn zs (fuel + 1) rd cctx =
      if last then zs.succeed.pre (Event.read (toInt E.ZSTD_CStreamInSize) x.ret x.buf :: tr)
      else (chunkLoop E in_fn zs fuel x.next s1).pre
        (Event.read (toInt E.ZSTD_CStreamInSize) x.ret x.buf :: tr) := by
  subst hx hl
  unfold directive at henc
  simp only [chunkLoop]
  rw [henc]
  simp [hp]

theorem conforms_read (cap len ret : Int) (buf : List Byte) (rest : List Event) :
    conforms cap Expect.reading (Event.read len ret buf :: rest) =
      (decide (len = cap) &&
        conforms cap (Expect.stepping (decide (ret < cap))
          { src := buf, size := toSizeT ret, pos := 0 }) rest) := by
  simp [conforms]

theorem reads_of_chunk (len ret : Int) (buf : List Byte) (tr rest : List Event)
    (h : ∀ e ∈ tr, e.isRead = false) :
    ((Event.read len ret buf :: tr ++ rest).filter Event.isRead).length =
      (rest.filter Event.isRead).length + 1 := by
  have h0 : tr.filter Event.isRead = [] :=
    List.filter_eq_nil_iff.2 (fun e he => by simp [h e he])
  rw [List.cons_append, List.filter_cons_of_pos (by rfl), List.filter_append, h0]
  simp

theorem callState_succ {ρ : Type} (in_fn : Reader ρ) (len : Int) (rd : ρ) (i : Nat) :
    callState in_fn len rd (i + 1) = callState in_fn len (in_fn rd len).next i := by
  induction i with
  | zero => rfl
  | succ i ih =>
    show (in_fn (callState in_fn len rd (i + 1)) len).next = _
    rw [ih]
    rfl

theorem call_succ {ρ : Type} (in_fn : Reader ρ) (len : Int) (rd : ρ) (i : Nat) :
    call in_fn len rd (i + 1) = call in_fn len (in_fn rd len).next i := by
  unfold call
  rw [callState_succ]

/-- The protocol of `compress` from any point of the outer loop: `n` full reads,
then a short one. -/
theorem chunkLoop_protocol {σ ρ : Type} (E : CEngine σ) (μ : Bool → σ → ZSTD_inBuffer → Nat)
    (in_fn : Reader ρ) (zs : ZSObj) (hin : E.ZSTD_CStreamInSize < 2 ^ 31)
    (hout : E.ZSTD_CStreamOutSize < 2 ^ 31) (hlive : E.Live μ) (n : Nat) :
    ∀ (rd : ρ) (cctx : σ),
    (∀ i, i < n →
      (call in_fn (toInt E.ZSTD_CStreamInSize) rd i).ret = (E.ZSTD_CStreamInSize : Int) ∧
      E.ZSTD_CStreamInSize ≤ (call in_fn (toInt E.ZSTD_CStreamInSize) rd i).buf.length) →
    0 ≤ (call in_fn (toInt E.ZSTD_CStreamInSize) rd n).ret →
    (call in_fn (toInt E.ZSTD_CStreamInSize) rd n).ret < (E.ZSTD_CStreamInSize : Int) →
    (call in_fn (toInt E.ZSTD_CStreamInSize) rd n).ret.toNat ≤
      (call in_fn (toInt E.ZSTD_CStreamInSize) rd n).buf.length →
    ∃ (r : Run) (N : Nat), (∀ fuel, N ≤ fuel → chunkLoop E in_fn zs fuel rd cctx = r) ∧
      r.status = Status.success ∧
      conforms (E.ZSTD_CStreamInSize : Int) Expect.reading r.trace = true ∧
      (r.trace.filter Event.isRead).length = n + 1 := by
  have hcap : toInt E.ZSTD_CStreamInSize = (E.ZSTD_CStreamInSize : Int) := toInt_of_lt hin
  induction n with
  | zero =>
    intro rd cctx _ h0 h1 h2
    generalize hx : in_fn rd (toInt E.ZSTD_CStreamInSize) = x
    have hc : call in_fn (toInt E.ZSTD_CStreamInSize) rd 0 = x := hx
    rw [hc] at h0 h1 h2
    have hsz : toSizeT x.ret = x.ret.toNat := by
      unfold toSizeT
      rw [Int.emod_eq_of_lt h0 (by omega)]
    have hv : ({ src := x.buf, size := toSizeT x.ret, pos := 0 } : ZSTD_inBuffer).Valid :=
      ⟨Nat.zero_le _, by rw [hsz]; exact h2⟩
    obtain ⟨s1, input1, tr, hrec⟩ := encodeLoop_finishes E μ hlive true _ cctx _ hv le_rfl
    obtain ⟨g1, g2, g3, g4⟩ := encodeLoop_sound E μ hlive hout (E.ZSTD_CStreamInSize : Int) true _
      cctx _ s1 input1 tr hv (hrec _ (Nat.lt_succ_self _))
    refine ⟨zs.succeed.pre (Event.read (toInt E.ZSTD_CStreamInSize) x.ret x.buf :: tr),
      μ true cctx { src := x.buf, size := toSizeT x.ret, pos := 0 } + 2, fun fuel hf => ?_, rfl,
      ?_, ?_⟩
    · obtain ⟨f, rfl⟩ : ∃ f, fuel = f + 1 := ⟨fuel - 1, by omega⟩
      rw [chunkLoop_succ E in_fn zs f rd cctx x hx true (by simpa [hcap] using h1) s1 input1 tr
        (hrec f (by omega)) (by rw [g1])]
      rfl
    · have h4 := g4 []
      rw [List.append_nil] at h4
      have hd : decide (x.ret < (E.ZSTD_CStreamInSize : Int)) = true := by simpa using h1
      have htr : (zs.succeed.pre (Event.read (toInt E.ZSTD_CStreamInSize) x.ret x.buf :: tr)).trace =
          Event.read (toInt E.ZSTD_CStreamInSize) x.ret x.buf :: tr := by
        simp [ZSObj.succeed]
      rw [htr, conforms_read, hd, h4]
      simp [hcap, conforms]
    · have := reads_of_chunk (toInt E.ZSTD_CStreamInSize) x.ret x.buf tr [] g3
      simpa [ZSObj.succeed] using this
  | succ n ih =>
    intro rd cctx hfull h0 h1 h2
    generalize hx : in_fn rd (toInt E.ZSTD_CStreamInSize) = x
    have hc : call in_fn (toInt E.ZSTD_CStreamInSize) rd 0 = x := hx
    obtain ⟨f1, f2⟩ := hfull 0 (Nat.succ_pos n)
    rw [hc] at f1 f2
    have hsz : toSizeT x.ret = E.ZSTD_CStreamInSize := by
      rw [f1, toSizeT_natCast (by omega)]
    have hv : ({ src := x.buf, size := toSizeT x.ret, pos := 0 } : ZSTD_inBuffer).Valid :=
      ⟨Nat.zero_le _, by rw [hsz]; exact f2⟩
    obtain ⟨s1, input1, tr, hrec⟩ := encodeLoop_finishes E μ hlive false _ cctx _ hv le_rfl
    obtain ⟨g1, g2, g3, g4⟩ := encodeLoop_sound E μ hlive hout (E.ZSTD_CStreamInSize : Int) false
      _ cctx _ s1 input1 tr hv (hrec _ (Nat.lt_succ_self _))
    have hnext : ∀ i, call in_fn (toInt E.ZSTD_CStreamInSize) rd (i + 1) =
        call in_fn (toInt E.ZSTD_CStreamInSize) x.next i := by
      intro i
      rw [call_succ, hx]
    obtain ⟨r, N, k1, k2, k3, k4⟩ := ih x.next s1
      (fun i hi => by rw [← hnext]; exact hfull (i + 1) (by omega))
      (by rw [← hnext]; exact h0) (by rw [← hnext]; exact h1) (by rw [← hnext]; exact h2)
    refine ⟨r.pre (Event.read (toInt E.ZSTD_CStreamInSize) x.ret x.buf :: tr),
      max N (μ false cctx { src := x.buf, size := toSizeT x.ret, pos := 0 } + 1) + 1,
      fun fuel hf => ?_, k2, ?_, ?_⟩
    · obtain ⟨f, rfl⟩ : ∃ f, fuel = f + 1 := ⟨fuel - 1, by omega⟩
      rw [chunkLoop_succ E in_fn zs f rd cctx x hx false (by simp [hcap, f1]) s1 input1 tr
        (hrec f (by omega)) (by rw [g1]), k1 f (by omega)]
      rfl
    · have hd : decide (x.ret < (E.ZSTD_CStreamInSize : Int)) = false := by simp [f1]
      rw [Run.pre_trace, List.cons_append, conforms_read, hd, g4 r.trace]
      simp [hcap, k3]
    · rw [Run.pre_trace, reads_of_chunk _ _ _ tr r.trace g3, k4]

/-- C8: for a reader whose first `n - 1` calls return the capacity and whose call
`n` returns less (and at least 0), and an engine that meets the step contract,
`compress` returns success for every fuel from some bound on; its trace follows
the end-of-stream protocol `conforms` (non-final chunks with `ZSTD_e_continue`
until consumed, the final chunk with `ZSTD_e_end` until the engine returns 0, one
writer call with exactly the produced bytes after every step, nothing after the
final chunk) and holds exactly `n` reader calls. -/
theorem compress_protocol {σ ρ : Type} (E : CEngine σ) (μ : Bool → σ → ZSTD_inBuffer → Nat)
    (in_fn : Reader ρ) (zs0 : ZSObj) (rd : ρ) (cctx : σ) (n : Nat)
    (hin : E.ZSTD_CStreamInSize < 2 ^ 31) (hout : E.ZSTD_CStreamOutSize < 2 ^ 31)
    (hconf : configure E = Except.ok cctx) (hlive : E.Live μ) (hn : 0 < n)
    (hfull : ∀ i, i + 1 < n →
      (call in_fn (E.ZSTD_CStreamInSize : Int) rd i).ret = (E.ZSTD_CStreamInSize : Int) ∧
      E.ZSTD_CStreamInSize ≤ (call in_fn (E.ZSTD_CStreamInSize : Int) rd i).buf.length)
    (hlow : 0 ≤ (call in_fn (E.ZSTD_CStreamInSize : Int) rd (n - 1)).ret)
    (hshort : (call in_fn (E.ZSTD_CStreamInSize : Int) rd (n - 1)).ret <
      (E.ZSTD_CStreamInSize : Int))
    (hbuf : (call in_fn (E.ZSTD_CStreamInSize : Int) rd (n - 1)).ret.toNat ≤
      (call in_fn (E.ZSTD_CStreamInSize : Int) rd (n - 1)).buf.length) :
    ∃ N, ∀ fuel, N ≤ fuel →
      (compress E in_fn zs0 rd fuel).status = Status.success ∧
      conforms (E.ZSTD_CStreamInSize : Int) Expect.reading (compress E in_fn zs0 rd fuel).trace =
        true ∧
      ((compress E in_fn zs0 rd fuel).trace.filter Event.isRead).length = n := by
  have hcap : toInt E.ZSTD_CStreamInSize = (E.ZSTD_CStreamInSize : Int) := toInt_of_lt hin
  obtain ⟨m, rfl⟩ : ∃ m, n = m + 1 := ⟨n - 1, by omega⟩
  simp only [Nat.add_sub_cancel] at hlow hshort hbuf
  have key := chunkLoop_protocol E μ in_fn { zs0 with error := "" } hin hout hlive m rd cctx
  simp only [hcap] at key
  obtain ⟨r, N, k1, k2, k3, k4⟩ := key (fun i hi => hfull i (by omega)) hlow hshort hbuf
  refine ⟨N, fun fuel hf => ?_⟩
  have hc : compress E in_fn zs0 rd fuel = r := by
    simp only [compress, hconf]
    exact k1 fuel hf
  rw [hc]
  exact ⟨k2, k3, k4⟩

/-! ## The small codec meets the contracts -/

theorem slice_length {input : ZSTD_inBuffer} (hs : input.size ≤ input.src.length) (a b : Nat)
    (hb : b ≤ input.size) : (input.slice a b).length = b - a := by
  unfold ZSTD_inBuffer.slice
  rw [List.length_drop, List.length_take, List.length_take]
  omega

theorem slice_next {input : ZSTD_inBuffer} {a : Nat} {b : Byte} {rest : List Byte}
    (h : input.slice a input.size = b :: rest) : input.slice a (a + 1) = [b] := by
  unfold ZSTD_inBuffer.slice at h ⊢
  generalize input.src.take input.size = l at h ⊢
  have h3 : ∃ t, (l.take input.size).drop a ++ t = l.drop a := by
    rw [List.drop_take]
    exact ⟨_, List.take_append_drop _ _⟩
  obtain ⟨t, ht⟩ := h3
  rw [h] at ht
  rw [List.drop_take, ← ht]
  simp

theorem Toy.encodeStep_nil {input : ZSTD_inBuffer} (h : input.slice input.pos input.size = [])
    (cap : Nat) (mode : ZSTD_EndDirective) :
    Toy.encodeStep () cap input mode =
      if mode = ZSTD_EndDirective.ZSTD_e_end then
        { ctx := (), pos := input.pos, out := [0], ret := 0 }
      else { ctx := (), pos := input.pos, out := [], ret := 0 } := by
  unfold Toy.encodeStep
  rw [h]

theorem Toy.encodeStep_cons {input : ZSTD_inBuffer} {b : Byte} {rest : List Byte}
    (h : input.slice input.pos input.size = b :: rest) (cap : Nat) (mode : ZSTD_EndDirective) :
    Toy.encodeStep () cap input mode =
      { ctx := (), pos := input.pos + 1, out := [1, b], ret := 1 } := by
  unfold Toy.encodeStep
  rw [h]

theorem Toy.cengine_live :
    Toy.cengine.Live (fun _ _ input => input.size - input.pos + 1) := by
  intro last s input hv
  have hlen := slice_length hv.2 input.pos input.size le_rfl
  show Toy.isError (Toy.encodeStep s 2 input (directive last)).ret = false ∧
    input.pos ≤ (Toy.encodeStep s 2 input (directive last)).pos ∧
    (Toy.encodeStep s 2 input (directive last)).pos ≤ input.size ∧
    (Toy.encodeStep s 2 input (directive last)).out.length ≤ 2 ∧
    (last = true → (Toy.encodeStep s 2 input (directive last)).ret = 0 →
      (Toy.encodeStep s 2 input (directive last)).pos = input.size) ∧
    (finished last (Toy.encodeStep s 2 input (directive last)).ret
        { input with pos := (Toy.encodeStep s 2 input (directive last)).pos } = false →
      input.size - (Toy.encodeStep s 2 input (directive last)).pos + 1 <
        input.size - input.pos + 1)
  cases hsl : input.slice input.pos input.size with
  | nil =>
    rw [hsl] at hlen
    have hp : input.pos = input.size := by
      have := hv.1
      simp at hlen
      omega
    rw [Toy.encodeStep_nil hsl]
    cases last with
    | true => simp [directive, finished, Toy.isError, hp]
    | false => simp [directive, finished, Toy.isError, hp]
  | cons b rest =>
    rw [hsl] at hlen
    have hp : input.pos < input.size := by
      simp at hlen
      omega
    rw [Toy.encodeStep_cons hsl]
    refine ⟨by simp [Toy.isError], by simp, hp, by simp, by simp, fun _ => ?_⟩
    show input.size - (input.pos + 1) + 1 < input.size - input.pos + 1
    omega

theorem compress_protocol_witness :
    ∃ N, ∀ fuel, N ≤ fuel →
      (compress Toy.cengine fileReader { error := "old" } [7, 8, 9] fuel).status =
        Status.success ∧
      conforms 2 Expect.reading
        (compress Toy.cengine fileReader { error := "old" } [7, 8, 9] fuel).trace = true ∧
      ((compress Toy.cengine fileReader { error := "old" } [7, 8, 9] fuel).trace.filter
        Event.isRead).length = 2 :=
  compress_protocol Toy.cengine (fun _ _ input => input.size - input.pos + 1) fileReader
    { error := "old" } [7, 8, 9] () 2 (by decide) (by decide) rfl Toy.cengine_live (by decide)
    (fun i hi => by
      have h0 : i = 0 := by omega
      subst h0
      decide)
    (by decide) (by decide) (by decide)

/-! ## Chunk boundaries in `compress` -/

theorem slice_whole (c : List Byte) :
    ({ src := c, size := c.length, pos := 0 } : ZSTD_inBuffer).slice 0 c.length = c := by
  simp [ZSTD_inBuffer.slice]

/-- The chunks `compress` takes from a reader that delivers the chunks `cs`. -/
theorem chunkLoop_chunks {σ : Type} (E : CEngine σ) (μ : Bool → σ → ZSTD_inBuffer → Nat)
    (zs : ZSObj) (hin : E.ZSTD_CStreamInSize < 2 ^ 31) (hpos : 0 < E.ZSTD_CStreamInSize)
    (hout : E.ZSTD_CStreamOutSize < 2 ^ 31) (hlive : E.Live μ) (cs : List (List Byte)) :
    ∀ (cctx : σ), (∀ c ∈ cs, c.length ≤ E.ZSTD_CStreamInSize) →
    ∃ (r : Run) (N : Nat), (∀ fuel, N ≤ fuel → chunkLoop E chunkReader zs fuel cs cctx = r) ∧
      r.status = Status.success ∧
      consumed r.trace = (accepted E.ZSTD_CStreamInSize cs).flatten ∧
      (r.trace.filter Event.isRead).length = (accepted E.ZSTD_CStreamInSize cs).length := by
  have hcap : toInt E.ZSTD_CStreamInSize = (E.ZSTD_CStreamInSize : Int) := toInt_of_lt hin
  have final : ∀ (c : List Byte) (rest : List (List Byte)) (cctx : σ) (cs0 : List (List Byte)),
      c.length < E.ZSTD_CStreamInSize →
      chunkReader cs0 (toInt E.ZSTD_CStreamInSize) =
        { ret := (c.length : Nat), buf := c, next := rest } →
      ∃ (r : Run) (N : Nat), (∀ fuel, N ≤ fuel → chunkLoop E chunkReader zs fuel cs0 cctx = r) ∧
        r.status = Status.success ∧ consumed r.trace = c ∧
        (r.trace.filter Event.isRead).length = 1 := by
    intro c rest cctx cs0 hc hx
    have hsz : toSizeT ((c.length : Nat) : Int) = c.length := toSizeT_natCast (by omega)
    have hv : ({ src := c, size := toSizeT ((c.length : Nat) : Int), pos := 0 } :
        ZSTD_inBuffer).Valid := ⟨Nat.zero_le _, by rw [hsz]⟩
    obtain ⟨s1, input1, tr, hrec⟩ := encodeLoop_finishes E μ hlive true _ cctx _ hv le_rfl
    obtain ⟨g1, g2, g3, _⟩ := encodeLoop_sound E μ hlive hout (E.ZSTD_CStreamInSize : Int) true _
      cctx _ s1 input1 tr hv (hrec _ (Nat.lt_succ_self _))
    refine ⟨zs.succeed.pre (Event.read (toInt E.ZSTD_CStreamInSize) (c.length : Nat) c :: tr),
      μ true cctx { src := c, size := toSizeT ((c.length : Nat) : Int), pos := 0 } + 2,
      fun fuel hf => ?_, rfl, ?_, ?_⟩
    · obtain ⟨f, rfl⟩ : ∃ f, fuel = f + 1 := ⟨fuel - 1, by omega⟩
      rw [chunkLoop_succ E chunkReader zs f cs0 cctx
        { ret := (c.length : Nat), buf := c, next := rest } hx true
        (by rw [hcap]; simpa using hc) s1 input1 tr (hrec f (by omega)) (by rw [g1])]
      rfl
    · simp only [Run.pre_trace, ZSObj.succeed, List.append_nil, consumed_cons, Event.eaten,
        List.nil_append, g2, hsz]
      exact slice_whole c
    · have := reads_of_chunk (toInt E.ZSTD_CStreamInSize) (c.length : Nat) c tr [] g3
      simpa [ZSObj.succeed] using this
  induction cs with
  | nil =>
    intro cctx _
    obtain ⟨r, N, k1, k2, k3, k4⟩ := final [] [] cctx [] hpos rfl
    exact ⟨r, N, k1, k2, by simpa [accepted] using k3, by simpa [accepted] using k4⟩
  | cons c rest ih =>
    intro cctx hcs
    have hle : c.length ≤ E.ZSTD_CStreamInSize := hcs c (by simp)
    by_cases hc : c.length < E.ZSTD_CStreamInSize
    · obtain ⟨r, N, k1, k2, k3, k4⟩ := final c rest cctx (c :: rest) hc rfl
      exact ⟨r, N, k1, k2, by simpa [accepted, hc] using k3, by simpa [accepted, hc] using k4⟩
    · have hfull : c.length = E.ZSTD_CStreamInSize := by omega
      have hsz : toSizeT ((c.length : Nat) : Int) = c.length := toSizeT_natCast (by omega)
      have hv : ({ src := c, size := toSizeT ((c.length : Nat) : Int), pos := 0 } :
          ZSTD_inBuffer).Valid := ⟨Nat.zero_le _, by rw [hsz]⟩
      obtain ⟨s1, input1, tr, hrec⟩ := encodeLoop_finishes E μ hlive false _ cctx _ hv le_rfl
      obtain ⟨g1, g2, g3, _⟩ := encodeLoop_sound E μ hlive hout (E.ZSTD_CStreamInSize : Int)
        false _ cctx _ s1 input1 tr hv (hrec _ (Nat.lt_succ_self _))
      obtain ⟨r, N, k1, k2, k3, k4⟩ := ih s1 (fun c1 h1 => hcs c1 (by simp [h1]))
      refine ⟨r.pre (Event.read (toInt E.ZSTD_CStreamInSize) (c.length : Nat) c :: tr),
        max N (μ false cctx { src := c, size := toSizeT ((c.length : Nat) : Int), pos := 0 } + 1)
          + 1, fun fuel hf => ?_, k2, ?_, ?_⟩
      · obtain ⟨f, rfl⟩ : ∃ f, fuel = f + 1 := ⟨fuel - 1, by omega⟩
        rw [chunkLoop_succ E chunkReader zs f (c :: rest) cctx
          { ret := (c.length : Nat), buf := c, next := rest } rfl false
          (by rw [hcap]; simp [hfull]) s1 input1 tr (hrec f (by omega)) (by rw [g1]),
          k1 f (by omega)]
        rfl
      · simp only [Run.pre_trace, List.cons_append, consumed_cons, consumed_append, Event.eaten,
          List.nil_append, g2, hsz, k3, accepted, hc, if_false, List.flatten_cons]
        rw [slice_whole c]
      · rw [Run.pre_trace, reads_of_chunk _ _ _ tr r.trace g3, k4]
        simp [accepted, hc]

/-- C3, as the code has it: from a reader that delivers the chunks `cs` (none
longer than the capacity), `compress` takes the chunks up to and including the
first one shorter than the capacity (`accepted`), hands exactly their bytes to the
engine, in order, and never calls the reader again; it returns success for every
fuel from some bound on.  The engine sees the whole source only when every chunk
before the last is full. -/
theorem compress_takes_until_short {σ : Type} (E : CEngine σ)
    (μ : Bool → σ → ZSTD_inBuffer → Nat) (zs0 : ZSObj) (cctx : σ) (cs : List (List Byte))
    (hin : E.ZSTD_CStreamInSize < 2 ^ 31) (hpos : 0 < E.ZSTD_CStreamInSize)
    (hout : E.ZSTD_CStreamOutSize < 2 ^ 31) (hconf : configure E = Except.ok cctx)
    (hlive : E.Live μ) (hcs : ∀ c ∈ cs, c.length ≤ E.ZSTD_CStreamInSize) :
    ∃ N, ∀ fuel, N ≤ fuel →
      (compress E chunkReader zs0 cs fuel).status = Status.success ∧
      consumed (compress E chunkReader zs0 cs fuel).trace =
        (accepted E.ZSTD_CStreamInSize cs).flatten ∧
      ((compress E chunkReader zs0 cs fuel).trace.filter Event.isRead).length =
        (accepted E.ZSTD_CStreamInSize cs).length := by
  obtain ⟨r, N, k1, k2, k3, k4⟩ :=
    chunkLoop_chunks E μ { zs0 with error := "" } hin hpos hout hlive cs cctx hcs
  refine ⟨N, fun fuel hf => ?_⟩
  have hc : compress E chunkReader zs0 cs fuel = r := by
    simp only [compress, hconf]
    exact k1 fuel hf
  rw [hc]
  exact ⟨k2, k3, k4⟩

theorem compress_takes_until_short_witness :
    accepted 2 [[7], [8]] = [[7]] ∧
    ∃ N, ∀ fuel, N ≤ fuel →
      (compress Toy.cengine chunkReader { error := "" } [[7], [8]] fuel).status =
        Status.success ∧
      consumed (compress Toy.cengine chunkReader { error := "" } [[7], [8]] fuel).trace =
        (accepted 2 [[7], [8]]).flatten ∧
      ((compress Toy.cengine chunkReader { error := "" } [[7], [8]] fuel).trace.filter
        Event.isRead).length = (accepted 2 [[7], [8]]).length :=
  ⟨by decide,
    compress_takes_until_short Toy.cengine (fun _ _ input => input.size - input.pos + 1)
      { error := "" } () [[7], [8]] (by decide) (by decide) (by decide) rfl Toy.cengine_live
      (by decide)⟩

/-- C3 fails as stated: the source `[7, 8]` delivered one byte a read is cut after
its first byte (the read of 1 byte is below the capacity 2, so it is the final
chunk), while delivered as one chunk of 2 bytes it is compressed whole; the two
outputs differ. -/
theorem compress_chunking_differs :
    ([[7], [8]] : List (List Byte)).flatten = [7, 8] ∧
      ([[7, 8]] : List (List Byte)).flatten = [7, 8] ∧
      (compress Toy.cengine chunkReader { error := "" } [[7], [8]] 3).status = Status.success ∧
      (compress Toy.cengine chunkReader { error := "" } [[7, 8]] 3).status = Status.success ∧
      consumed (compress Toy.cengine chunkReader { error := "" } [[7], [8]] 3).trace = [7] ∧
      consumed (compress Toy.cengine chunkReader { error := "" } [[7, 8]] 3).trace = [7, 8] ∧
      written (compress Toy.cengine chunkReader { error := "" } [[7], [8]] 3).trace =
        [1, 7, 0] ∧
      written (compress Toy.cengine chunkReader { error := "" } [[7, 8]] 3).trace =
        [1, 7, 1, 8, 0] := by
  decide

/-! ## The inner loop of `decompress` under the engine contract -/

theorem decodeLoop_stop {σ : Type} (E : DEngine σ) (maxlen fuel : Nat) (s : σ)
    (input : ZSTD_inBuffer) (total : Nat) (h : ¬ input.pos < input.size) :
    decodeLoop E maxlen fuel s input total = DInner.drained s total [] := by
  cases fuel <;> simp [decodeLoop, h]

theorem decodeLoop_more {σ : Type} (E : DEngine σ) (f : Nat) (s : σ) (input : ZSTD_inBuffer)
    (total : Nat) (r : StepResult σ)
    (hr : E.ZSTD_decompressStream s E.ZSTD_DStreamOutSize input = r)
    (hlt : input.pos < input.size) (h1 : E.ZSTD_isError r.ret = false) :
    decodeLoop E unbounded (f + 1) s input total =
      (decodeLoop E unbounded f r.ctx { input with pos := r.pos }
        ((total + toSizeT (toInt r.out.length)) % 2 ^ 64)).pre
        [Event.decode input r.pos r.out r.ret, Event.write r.out (toInt r.out.length)] := by
  subst hr
  simp [decodeLoop, hlt, h1]

theorem dconforms_step (cap : Int) (input : ZSTD_inBuffer) (pos : Nat) (out : List Byte)
    (ret : Nat) (rest : List Event) :
    dconforms cap (DExpect.stepping input)
        (Event.decode input pos out ret :: Event.write out (out.length : Nat) :: rest) =
      dconforms cap
        (if pos < input.size then DExpect.stepping { input with pos := pos }
          else DExpect.reading) rest := by
  simp [dconforms]

/-- Under the engine contract the inner loop of an uncapped `decompress` drains the
view, with the same result for every fuel above the bound `m` on `μ`; the session
has then consumed the rest of the view and produced what was written. -/
theorem decodeLoop_decodes {σ : Type} (E : DEngine σ) (μ : σ → ZSTD_inBuffer → Nat)
    (Rel : σ → List Byte → List Byte → Prop) (Good : List Byte → Prop)
    (hdec : E.Decodes μ Rel Good) (hout : E.ZSTD_DStreamOutSize < 2 ^ 31) (cap : Int)
    (m : Nat) :
    ∀ (s : σ) (input : ZSTD_inBuffer) (i o : List Byte) (total : Nat), input.Valid →
    Rel s i o → Good (i ++ input.slice input.pos input.size) → μ s input ≤ m →
    ∃ s1 total1 tr, (∀ fuel, m < fuel →
        decodeLoop E unbounded fuel s input total = DInner.drained s1 total1 tr) ∧
      Rel s1 (i ++ input.slice input.pos input.size) (o ++ written tr) ∧
      consumed tr = input.slice input.pos input.size ∧
      (input.pos < input.size → ∀ rest,
        dconforms cap (DExpect.stepping input) (tr ++ rest) =
          dconforms cap DExpect.reading rest) := by
  have stop : ∀ (s : σ) (input : ZSTD_inBuffer) (i o : List Byte) (total : Nat), input.Valid →
      Rel s i o → ¬ input.pos < input.size →
      ∃ s1 total1 tr, (∀ fuel,
          decodeLoop E unbounded fuel s input total = DInner.drained s1 total1 tr) ∧
        Rel s1 (i ++ input.slice input.pos input.size) (o ++ written tr) ∧
        consumed tr = input.slice input.pos input.size ∧
        (input.pos < input.size → ∀ rest,
          dconforms cap (DExpect.stepping input) (tr ++ rest) =
            dconforms cap DExpect.reading rest) := by
    intro s input i o total hv hrel hge
    have hp : input.pos = input.size := le_antisymm hv.1 (not_lt.1 hge)
    refine ⟨s, total, [], fun fuel => decodeLoop_stop E _ fuel s input total hge, ?_, ?_,
      fun h => absurd h hge⟩
    · rw [hp, slice_self]
      simpa using hrel
    · rw [hp, slice_self]
      rfl
  have step : ∀ (m : Nat), (∀ (s : σ) (input : ZSTD_inBuffer) (i o : List Byte) (total : Nat),
      input.Valid → Rel s i o → Good (i ++ input.slice input.pos input.size) →
      μ s input < m →
      ∃ s1 total1 tr, (∀ fuel, m ≤ fuel →
          decodeLoop E unbounded fuel s input total = DInner.drained s1 total1 tr) ∧
        Rel s1 (i ++ input.slice input.pos input.size) (o ++ written tr) ∧
        consumed tr = input.slice input.pos input.size ∧
        (input.pos < input.size → ∀ rest,
          dconforms cap (DExpect.stepping input) (tr ++ rest) =
            dconforms cap DExpect.reading rest)) →
      ∀ (s : σ) (input : ZSTD_inBuffer) (i o : List Byte) (total : Nat), input.Valid →
      Rel s i o → Good (i ++ input.slice input.pos input.size) → μ s input ≤ m →
      ∃ s1 total1 tr, (∀ fuel, m < fuel →
          decodeLoop E unbounded fuel s input total = DInner.drained s1 total1 tr) ∧
        Rel s1 (i ++ input.slice input.pos input.size) (o ++ written tr) ∧
        consumed tr = input.slice input.pos input.size ∧
        (input.pos < input.size → ∀ rest,
          dconforms cap (DExpect.stepping input) (tr ++ rest) =
            dconforms cap DExpect.reading rest) := by
    intro m ih s input i o total hv hrel hgood hm
    by_cases hlt : input.pos < input.size
    · obtain ⟨h1, h2, h3, h4, h5, h6⟩ := hdec s input i o hv hlt hrel hgood
      generalize hr : E.ZSTD_decompressStream s E.ZSTD_DStreamOutSize input = r
        at h1 h2 h3 h4 h5 h6
      have hol : r.out.length < 2 ^ 31 := lt_of_le_of_lt h4 hout
      have hlen : toInt r.out.length = ((r.out.length : Nat) : Int) := toInt_of_lt hol
      have hv1 : ({ input with pos := r.pos } : ZSTD_inBuffer).Valid := ⟨h3, hv.2⟩
      have hsl : input.slice input.pos r.pos ++ input.slice r.pos input.size =
          input.slice input.pos input.size := slice_append h2 h3 le_rfl hv.2
      have hgood1 : Good (i ++ input.slice input.pos r.pos ++
          ({ input with pos := r.pos } : ZSTD_inBuffer).slice
            ({ input with pos := r.pos } : ZSTD_inBuffer).pos
            ({ input with pos := r.pos } : ZSTD_inBuffer).size) := by
        show Good (i ++ input.slice input.pos r.pos ++ input.slice r.pos input.size)
        rw [List.append_assoc, hsl]
        exact hgood
      have hrest : ∃ s1 total1 tr, (∀ fuel, m ≤ fuel →
          decodeLoop E unbounded fuel r.ctx { input with pos := r.pos }
            ((total + toSizeT (toInt r.out.length)) % 2 ^ 64) = DInner.drained s1 total1 tr) ∧
          Rel s1 (i ++ input.slice input.pos r.pos ++ input.slice r.pos input.size)
            (o ++ r.out ++ written tr) ∧
          consumed tr = input.slice r.pos input.size ∧
          (r.pos < input.size → ∀ rest,
            dconforms cap (DExpect.stepping { input with pos := r.pos }) (tr ++ rest) =
              dconforms cap DExpect.reading rest) := by
        by_cases hlt1 : r.pos < input.size
        · exact ih r.ctx { input with pos := r.pos } _ _ _ hv1 h5 hgood1
            (lt_of_lt_of_le (h6 hlt1) hm)
        · obtain ⟨s1, total1, tr, k1, k2, k3, k4⟩ := stop r.ctx { input with pos := r.pos }
            (i ++ input.slice input.pos r.pos) (o ++ r.out)
            ((total + toSizeT (toInt r.out.length)) % 2 ^ 64) hv1 h5 hlt1
          exact ⟨s1, total1, tr, fun fuel _ => k1 fuel, k2, k3, k4⟩
      obtain ⟨s1, total1, tr, k1, k2, k3, k4⟩ := hrest
      refine ⟨s1, total1, [Event.decode input r.pos r.out r.ret,
        Event.write r.out (toInt r.out.length)] ++ tr, fun fuel hf => ?_, ?_, ?_, fun _ rest => ?_⟩
      · obtain ⟨f, rfl⟩ : ∃ f, fuel = f + 1 := ⟨fuel - 1, by omega⟩
        rw [decodeLoop_more E f s input total r hr hlt h1, k1 f (by omega)]
        rfl
      · rw [List.cons_append, List.cons_append, List.nil_append, written_step hol, ← hsl,
          ← List.append_assoc, ← List.append_assoc]
        exact k2
      · simp only [List.cons_append, List.nil_append, consumed_cons, Event.eaten, k3,
          List.nil_append]
        exact hsl
      · show dconforms cap (DExpect.stepping input)
          (Event.decode input r.pos r.out r.ret :: Event.write r.out (toInt r.out.length) ::
            (tr ++ rest)) = _
        rw [hlen, dconforms_step]
        by_cases hlt1 : r.pos < input.size
        · rw [if_pos hlt1]
          exact k4 hlt1 rest
        · rw [if_neg hlt1]
          have htr : tr = [] := by
            have := k1 m le_rfl
            rw [decodeLoop_stop E _ m r.ctx { input with pos := r.pos } _ hlt1] at this
            simp only [DInner.drained.injEq] at this
            exact this.2.2.symm
          rw [htr]
          rfl
    · obtain ⟨s1, total1, tr, k1, k2, k3, k4⟩ := stop s input i o total hv hrel hlt
      exact ⟨s1, total1, tr, fun fuel _ => k1 fuel, k2, k3, k4⟩
  induction m with
  | zero =>
    exact step 0 (fun s input i o total _ _ _ h => absurd h (Nat.not_lt_zero _))
  | succ m ih =>
    refine step (m + 1) (fun s input i o total hv hrel hgood h => ?_)
    obtain ⟨s1, total1, tr, k1, k2, k3, k4⟩ := ih s input i o total hv hrel hgood (by omega)
    exact ⟨s1, total1, tr, fun fuel hf => k1 fuel (by omega), k2, k3, k4⟩

/-! ## The outer loop of `decompress` under the engine contract -/

theorem readLoop_end {σ ρ : Type} (E : DEngine σ) (in_fn : Reader ρ) (maxlen : Nat) (zs : ZSObj)
    (f : Nat) (rd : ρ) (s : σ) (total : Nat) (isEmpty : Bool) (x : ReadResult ρ)
    (hx : in_fn rd (toInt E.ZSTD_DStreamInSize) = x) (hret : x.ret < 1) :
    readLoop E in_fn maxlen zs (f + 1) rd s total isEmpty =
      (decompressDone zs isEmpty).pre [Event.read (toInt E.ZSTD_DStreamInSize) x.ret x.buf] := by
  subst hx
  simp [readLoop, hret]

theorem readLoop_drained {σ ρ : Type} (E : DEngine σ) (in_fn : Reader ρ) (maxlen : Nat)
    (zs : ZSObj) (f : Nat) (rd : ρ) (s : σ) (total : Nat) (isEmpty : Bool) (x : ReadResult ρ)
    (hx : in_fn rd (toInt E.ZSTD_DStreamInSize) = x) (hret : ¬ x.ret < 1)
    (s1 : σ) (total1 : Nat) (tr : List Event)
    (hd : decodeLoop E maxlen f s { src := x.buf, size := toSizeT x.ret, pos := 0 } total =
      DInner.drained s1 total1 tr) :
    readLoop E in_fn maxlen zs (f + 1) rd s total isEmpty =
      (readLoop E in_fn maxlen zs f x.next s1 total1 false).pre
        (Event.read (toInt E.ZSTD_DStreamInSize) x.ret x.buf :: tr) := by
  subst hx
  simp only [readLoop, if_neg hret]
  rw [hd]

theorem dconforms_read (cap len ret : Int) (buf : List Byte) (rest : List Event) :
    dconforms cap DExpect.reading (Event.read len ret buf :: rest) =
      (decide (len = cap) &&
        (if ret < 1 then rest.isEmpty
          else dconforms cap (DExpect.stepping { src := buf, size := toSizeT ret, pos := 0 })
            rest)) := by
  simp [dconforms]

theorem decompressDone_trace (zs : ZSObj) (b : Bool) : (decompressDone zs b).trace = [] := by
  unfold decompressDone
  split <;> rfl

/-- An uncapped `decompress` on a reader that delivers the chunks `cs`, under the
engine contract: every chunk is stepped from offset 0 until consumed, and the
session ends having consumed all chunks and produced what was written. -/
theorem readLoop_delivers {σ ρ : Type} (E : DEngine σ) (μ : σ → ZSTD_inBuffer → Nat)
    (Rel : σ → List Byte → List Byte → Prop) (Good : List Byte → Prop)
    (hdec : E.Decodes μ Rel Good) (in_fn : Reader ρ) (zs : ZSObj)
    (hin : E.ZSTD_DStreamInSize < 2 ^ 31) (hout : E.ZSTD_DStreamOutSize < 2 ^ 31)
    (cs : List (List Byte)) :
    ∀ (rd : ρ) (s : σ) (i o : List Byte) (total : Nat) (isEmpty : Bool),
    Delivers in_fn (toInt E.ZSTD_DStreamInSize) rd cs →
    (∀ c ∈ cs, c.length ≤ E.ZSTD_DStreamInSize) → Rel s i o →
    (∀ k, Good (i ++ (cs.take k).flatten)) →
    ∃ (r : Run) (N : Nat),
      (∀ fuel, N ≤ fuel → readLoop E in_fn unbounded zs fuel rd s total isEmpty = r) ∧
      consumed r.trace = cs.flatten ∧
      dconforms (E.ZSTD_DStreamInSize : Int) DExpect.reading r.trace = true ∧
      (∃ s1, Rel s1 (i ++ cs.flatten) (o ++ written r.trace)) ∧
      (cs ≠ [] ∨ isEmpty = false → r.status = Status.success) := by
  have hcap : toInt E.ZSTD_DStreamInSize = (E.ZSTD_DStreamInSize : Int) := toInt_of_lt hin
  induction cs with
  | nil =>
    intro rd s i o total isEmpty hdel _ hrel _
    generalize hx : in_fn rd (toInt E.ZSTD_DStreamInSize) = x
    have hret : x.ret < 1 := by
      rw [← hx]
      exact hdel
    refine ⟨(decompressDone zs isEmpty).pre [Event.read (toInt E.ZSTD_DStreamInSize) x.ret x.buf],
      1, fun fuel hf => ?_, ?_, ?_, ⟨s, ?_⟩, fun h => ?_⟩
    · obtain ⟨f, rfl⟩ : ∃ f, fuel = f + 1 := ⟨fuel - 1, by omega⟩
      exact readLoop_end E in_fn _ zs f rd s total isEmpty x hx hret
    · simp [decompressDone_trace, Event.eaten]
    · rw [Run.pre_trace, decompressDone_trace, List.append_nil, dconforms_read, if_pos hret]
      simp [hcap]
    · simpa [decompressDone_trace, Event.given] using hrel
    · rcases h with h | h
      · exact absurd rfl h
      · subst h
        rfl
  | cons c rest ih =>
    intro rd s i o total isEmpty hdel hcs hrel hgood
    generalize hx : in_fn rd (toInt E.ZSTD_DStreamInSize) = x
    obtain ⟨hne, d1, d2, d3⟩ := hdel
    rw [hx] at d1 d2 d3
    have hlen : 0 < c.length := List.length_pos.2 hne
    have hle : c.length ≤ E.ZSTD_DStreamInSize := hcs c (by simp)
    have hret : ¬ x.ret < 1 := by
      rw [d1]
      omega
    have hsz : toSizeT x.ret = c.length := by
      rw [d1]
      exact toSizeT_natCast (by omega)
    have hv : ({ src := x.buf, size := toSizeT x.ret, pos := 0 } : ZSTD_inBuffer).Valid :=
      ⟨Nat.zero_le _, by rw [hsz, d2]⟩
    have hsl : ({ src := x.buf, size := toSizeT x.ret, pos := 0 } : ZSTD_inBuffer).slice
        ({ src := x.buf, size := toSizeT x.ret, pos := 0 } : ZSTD_inBuffer).pos
        ({ src := x.buf, size := toSizeT x.ret, pos := 0 } : ZSTD_inBuffer).size = c := by
      rw [hsz, d2]
      exact slice_whole c
    have hg1 : Good (i ++ c) := by
      have := hgood 1
      simpa using this
    obtain ⟨s1, total1, tr, k1, k2, k3, k4⟩ := decodeLoop_decodes E μ Rel Good hdec hout
      (E.ZSTD_DStreamInSize : Int) _ s { src := x.buf, size := toSizeT x.ret, pos := 0 } i o total
      hv hrel (by rw [hsl]; exact hg1) le_rfl
    rw [hsl] at k2 k3
    obtain ⟨r, N, g1, g2, g3, ⟨s2, g4⟩, g5⟩ := ih x.next s1 (i ++ c) (o ++ written tr) total1 false
      d3 (fun c1 h1 => hcs c1 (by simp [h1])) k2 (fun k => by
        have := hgood (k + 1)
        simpa [List.append_assoc] using this)
    refine ⟨r.pre (Event.read (toInt E.ZSTD_DStreamInSize) x.ret x.buf :: tr),
      max N (μ s { src := x.buf, size := toSizeT x.ret, pos := 0 } + 1) + 1,
      fun fuel hf => ?_, ?_, ?_, ⟨s2, ?_⟩, fun _ => ?_⟩
    · obtain ⟨f, rfl⟩ : ∃ f, fuel = f + 1 := ⟨fuel - 1, by omega⟩
      rw [readLoop_drained E in_fn _ zs f rd s total isEmpty x hx hret s1 total1 tr
        (k1 f (by omega)), g1 f (by omega)]
    · simp [Event.eaten, k3, g2]
    · rw [Run.pre_trace, List.cons_append, dconforms_read, if_neg hret,
        k4 (by show 0 < toSizeT x.ret; omega) r.trace, g3]
      simp [hcap]
    · simpa [Event.given, List.append_assoc] using g4
    · exact g5 (Or.inr rfl)

theorem chunkReader_delivers (len : Int) (cs : List (List Byte)) (h : ∀ c ∈ cs, c ≠ []) :
    Delivers chunkReader len cs cs := by
  induction cs with
  | nil => exact (by decide : (0 : Int) < 1)
  | cons c rest ih =>
    exact ⟨h c (by simp), rfl, rfl, ih (fun c1 h1 => h c1 (by simp [h1]))⟩

theorem flatten_take_drop (cs : List (List Byte)) (k : Nat) :
    (cs.take k).flatten ++ (cs.drop k).flatten = cs.flatten := by
  rw [← List.flatten_append, List.take_append_drop]

/-- C4: for two splits `cs1`, `cs2` of one compressed sequence into non-empty
chunks no longer than the input block, an uncapped `decompress` on an engine that
steps the prefixes of that sequence without error presents every chunk to the
engine from offset 0 and steps it until consumed (`dconforms`), so that the engine
consumes exactly the sequence under either split; with an engine whose output is
determined by its input, the bytes written under the two splits are the same. -/
theorem decompress_chunking {σ : Type} (E : DEngine σ) (μ : σ → ZSTD_inBuffer → Nat)
    (Rel : σ → List Byte → List Byte → Prop) (zs0 : ZSObj) (dctx : σ)
    (cs1 cs2 : List (List Byte))
    (hin : E.ZSTD_DStreamInSize < 2 ^ 31) (hout : E.ZSTD_DStreamOutSize < 2 ^ 31)
    (hc : E.ZSTD_createDCtx = some dctx) (h0 : Rel dctx [] [])
    (hdec : E.Decodes μ Rel (fun x => ∃ y, x ++ y = cs1.flatten))
    (hfun : ∀ s1 s2 i o1 o2, Rel s1 i o1 → Rel s2 i o2 → o1 = o2)
    (h1 : ∀ c ∈ cs1, c ≠ [] ∧ c.length ≤ E.ZSTD_DStreamInSize)
    (h2 : ∀ c ∈ cs2, c ≠ [] ∧ c.length ≤ E.ZSTD_DStreamInSize)
    (hsame : cs1.flatten = cs2.flatten) :
    ∃ N, ∀ f1 f2, N ≤ f1 → N ≤ f2 →
      dconforms (E.ZSTD_DStreamInSize : Int) DExpect.reading
        (decompress E chunkReader zs0 cs1 unbounded f1).trace = true ∧
      dconforms (E.ZSTD_DStreamInSize : Int) DExpect.reading
        (decompress E chunkReader zs0 cs2 unbounded f2).trace = true ∧
      consumed (decompress E chunkReader zs0 cs1 unbounded f1).trace = cs1.flatten ∧
      consumed (decompress E chunkReader zs0 cs2 unbounded f2).trace = cs1.flatten ∧
      written (decompress E chunkReader zs0 cs1 unbounded f1).trace =
        written (decompress E chunkReader zs0 cs2 unbounded f2).trace ∧
      (cs1 ≠ [] → (decompress E chunkReader zs0 cs1 unbounded f1).status = Status.success ∧
        (decompress E chunkReader zs0 cs2 unbounded f2).status = Status.success) := by
  obtain ⟨r1, N1, a1, a2, a3, ⟨t1, a4⟩, a5⟩ := readLoop_delivers E μ Rel _ hdec chunkReader
    { zs0 with error := "" } hin hout cs1 cs1 dctx [] [] 0 true
    (chunkReader_delivers _ cs1 (fun c h => (h1 c h).1)) (fun c h => (h1 c h).2) h0
    (fun k => ⟨(cs1.drop k).flatten, by simpa using flatten_take_drop cs1 k⟩)
  obtain ⟨r2, N2, b1, b2, b3, ⟨t2, b4⟩, b5⟩ := readLoop_delivers E μ Rel _ hdec chunkReader
    { zs0 with error := "" } hin hout cs2 cs2 dctx [] [] 0 true
    (chunkReader_delivers _ cs2 (fun c h => (h2 c h).1)) (fun c h => (h2 c h).2) h0
    (fun k => ⟨(cs2.drop k).flatten, by
      rw [hsame]
      simpa using flatten_take_drop cs2 k⟩)
  refine ⟨max N1 N2, fun f1 f2 hf1 hf2 => ?_⟩
  have e1 : decompress E chunkReader zs0 cs1 unbounded f1 = r1 := by
    simp only [decompress, hc]
    exact a1 f1 (by omega)
  have e2 : decompress E chunkReader zs0 cs2 unbounded f2 = r2 := by
    simp only [decompress, hc]
    exact b1 f2 (by omega)
  rw [e1, e2]
  refine ⟨a3, b3, a2, by rw [b2, hsame], ?_, fun hne => ⟨a5 (Or.inl hne), b5 (Or.inl ?_)⟩⟩
  · rw [← hsame] at b4
    simpa using hfun t1 t2 _ _ _ a4 b4
  · intro h
    rw [h] at hsame
    have : cs1.flatten = [] := by simpa using hsame
    rcases cs1 with _ | ⟨c, rest⟩
    · exact hne rfl
    · have hc1 := (h1 c (by simp)).1
      simp at this
      exact hc1 this.1

/-! ## The small decoder meets the contract -/

theorem Toy.body_append (a b : List Byte) : Toy.body (a ++ b) = Toy.body a ++ Toy.body b := by
  induction a with
  | nil => rfl
  | cons x a ih => simp [Toy.body, ih]

/-- A tagged payload followed by at most one byte determines the payload. -/
theorem Toy.body_inj : ∀ (a b x y : List Byte), x.length ≤ 1 → y.length ≤ 1 →
    Toy.body a ++ x = Toy.body b ++ y → a = b
  | [], [], _, _, _, _, _ => rfl
  | [], _ :: _, x, y, hx, _, h => by
    have := congrArg List.length h
    simp [Toy.body] at this
    omega
  | _ :: _, [], x, y, _, hy, h => by
    have := congrArg List.length h
    simp [Toy.body] at this
    omega
  | p :: a, q :: b, x, y, hx, hy, h => by
    simp only [Toy.body, List.cons_append, List.cons.injEq, true_and] at h
    rw [h.1, Toy.body_inj a b x y hx hy h.2]

/-- The byte that follows a tagged payload inside a frame is a tag. -/
theorem Toy.tag_next : ∀ (o S : List Byte) (b : Byte) (t : List Byte),
    Toy.body o ++ b :: t = Toy.frame S → b = 1 ∨ b = 0
  | [], [], b, t, h => by
    simp [Toy.body, Toy.frame] at h
    exact Or.inr h.1
  | [], _ :: _, b, t, h => by
    simp [Toy.body, Toy.frame] at h
    exact Or.inl h.1
  | _ :: _, [], b, t, h => by
    have := congrArg List.length h
    simp [Toy.body, Toy.frame] at this
  | p :: o, q :: S, b, t, h => by
    simp only [Toy.body, Toy.frame, List.cons_append, List.cons.injEq, true_and] at h
    exact Toy.tag_next o S b t h.2

/-- Nothing follows the closing tag inside a frame. -/
theorem Toy.closed_last : ∀ (o S : List Byte) (t : List Byte),
    Toy.body o ++ 0 :: t = Toy.frame S → t = []
  | [], [], t, h => by
    simp [Toy.body, Toy.frame] at h
    exact h
  | [], _ :: _, t, h => by
    simp [Toy.body, Toy.frame] at h
  | _ :: _, [], t, h => by
    have := congrArg List.length h
    simp [Toy.body, Toy.frame] at this
  | p :: o, q :: S, t, h => by
    simp only [Toy.body, Toy.frame, List.cons_append, List.cons.injEq, true_and] at h
    exact Toy.closed_last o S t h.2

theorem Toy.RelD_fun (s1 s2 : Toy.Phase) (i o1 o2 : List Byte) (h1 : Toy.RelD s1 i o1)
    (h2 : Toy.RelD s2 i o2) : o1 = o2 := by
  cases s1 <;> cases s2 <;> simp only [Toy.RelD] at h1 h2 <;> rw [h1] at h2
  · exact Toy.body_inj o1 o2 [] [] (by simp) (by simp) (by simpa using h2)
  · exact Toy.body_inj o1 o2 [] [1] (by simp) (by simp) (by simpa using h2)
  · exact Toy.body_inj o1 o2 [] [0] (by simp) (by simp) (by simpa using h2)
  · exact Toy.body_inj o1 o2 [1] [] (by simp) (by simp) (by simpa using h2)
  · exact Toy.body_inj o1 o2 [1] [1] (by simp) (by simp) h2
  · exact Toy.body_inj o1 o2 [1] [0] (by simp) (by simp) h2
  · exact Toy.body_inj o1 o2 [0] [] (by simp) (by simp) (by simpa using h2)
  · exact Toy.body_inj o1 o2 [0] [1] (by simp) (by simp) h2
  · exact Toy.body_inj o1 o2 [0] [0] (by simp) (by simp) h2

theorem Toy.RelD_frame (S : List Byte) (s : Toy.Phase) (o : List Byte)
    (h : Toy.RelD s (Toy.frame S) o) : o = S := by
  have h2 : Toy.RelD Toy.Phase.closed (Toy.frame S) S := rfl
  exact Toy.RelD_fun s Toy.Phase.closed _ o S h h2

theorem Toy.dengine_decodes (S : List Byte) :
    Toy.dengine.Decodes (fun _ input => input.size - input.pos) Toy.RelD
      (fun x => ∃ y, x ++ y = Toy.frame S) := by
  intro s input i o hv hlt hrel hgood
  obtain ⟨y, hy⟩ := hgood
  have hlen := slice_length hv.2 input.pos input.size le_rfl
  show Toy.isError (Toy.decodeStep s 2 input).ret = false ∧
    input.pos ≤ (Toy.decodeStep s 2 input).pos ∧
    (Toy.decodeStep s 2 input).pos ≤ input.size ∧
    (Toy.decodeStep s 2 input).out.length ≤ 2 ∧
    Toy.RelD (Toy.decodeStep s 2 input).ctx
      (i ++ input.slice input.pos (Toy.decodeStep s 2 input).pos)
      (o ++ (Toy.decodeStep s 2 input).out) ∧
    ((Toy.decodeStep s 2 input).pos < input.size →
      input.size - (Toy.decodeStep s 2 input).pos < input.size - input.pos)
  cases hsl : input.slice input.pos input.size with
  | nil =>
    rw [hsl] at hlen
    simp at hlen
    omega
  | cons b rest =>
    have hnext := slice_next hsl
    rw [hsl] at hy
    cases s with
    | tag =>
      simp only [Toy.RelD] at hrel
      rw [hrel, List.append_assoc, List.cons_append] at hy
      rcases Toy.tag_next o S b (rest ++ y) hy with hb | hb
      · have hstep : Toy.decodeStep Toy.Phase.tag 2 input =
            { ctx := Toy.Phase.payload, pos := input.pos + 1, out := [], ret := 1 } := by
          unfold Toy.decodeStep
          rw [hsl]
          simp [hb]
        rw [hstep]
        refine ⟨by simp [Toy.isError], by simp, hlt, by simp, ?_, fun _ => by
          show input.size - (input.pos + 1) < input.size - input.pos
          omega⟩
        show Toy.RelD Toy.Phase.payload (i ++ input.slice input.pos (input.pos + 1)) (o ++ [])
        rw [hnext, hrel, hb]
        simp [Toy.RelD]
      · have hstep : Toy.decodeStep Toy.Phase.tag 2 input =
            { ctx := Toy.Phase.closed, pos := input.pos + 1, out := [], ret := 0 } := by
          unfold Toy.decodeStep
          rw [hsl]
          simp [hb]
        rw [hstep]
        refine ⟨by simp [Toy.isError], by simp, hlt, by simp, ?_, fun _ => by
          show input.size - (input.pos + 1) < input.size - input.pos
          omega⟩
        show Toy.RelD Toy.Phase.closed (i ++ input.slice input.pos (input.pos + 1)) (o ++ [])
        rw [hnext, hrel, hb]
        simp [Toy.RelD]
    | payload =>
      simp only [Toy.RelD] at hrel
      have hstep : Toy.decodeStep Toy.Phase.payload 2 input =
          { ctx := Toy.Phase.tag, pos := input.pos + 1, out := [b], ret := 1 } := by
        unfold Toy.decodeStep
        rw [hsl]
      rw [hstep]
      refine ⟨by simp [Toy.isError], by simp, hlt, by simp, ?_, fun _ => by
        show input.size - (input.pos + 1) < input.size - input.pos
        omega⟩
      show Toy.RelD Toy.Phase.tag (i ++ input.slice input.pos (input.pos + 1)) (o ++ [b])
      rw [hnext, hrel]
      simp [Toy.RelD, Toy.body_append, Toy.body]
    | closed =>
      simp only [Toy.RelD] at hrel
      rw [hrel, List.append_assoc, List.append_assoc, List.singleton_append] at hy
      have := Toy.closed_last o S _ hy
      simp at this

theorem decompress_chunking_witness :
    ([[1], [7], [1], [8], [0]] : List (List Byte)).flatten = Toy.frame [7, 8] ∧
    ([[1, 7, 1], [8, 0]] : List (List Byte)).flatten = Toy.frame [7, 8] ∧
    ∃ N, ∀ f1 f2, N ≤ f1 → N ≤ f2 →
      dconforms 3 DExpect.reading
        (decompress Toy.dengine chunkReader { error := "" } [[1], [7], [1], [8], [0]]
          unbounded f1).trace = true ∧
      dconforms 3 DExpect.reading
        (decompress Toy.dengine chunkReader { error := "" } [[1, 7, 1], [8, 0]]
          unbounded f2).trace = true ∧
      consumed (decompress Toy.dengine chunkReader { error := "" } [[1], [7], [1], [8], [0]]
        unbounded f1).trace = ([[1], [7], [1], [8], [0]] : List (List Byte)).flatten ∧
      consumed (decompress Toy.dengine chunkReader { error := "" } [[1, 7, 1], [8, 0]]
        unbounded f2).trace = ([[1], [7], [1], [8], [0]] : List (List Byte)).flatten ∧
      written (decompress Toy.dengine chunkReader { error := "" } [[1], [7], [1], [8], [0]]
        unbounded f1).trace =
        written (decompress Toy.dengine chunkReader { error := "" } [[1, 7, 1], [8, 0]]
          unbounded f2).trace ∧
      (([[1], [7], [1], [8], [0]] : List (List Byte)) ≠ [] →
        (decompress Toy.dengine chunkReader { error := "" } [[1], [7], [1], [8], [0]]
          unbounded f1).status = Status.success ∧
        (decompress Toy.dengine chunkReader { error := "" } [[1, 7, 1], [8, 0]]
          unbounded f2).status = Status.success) :=
  ⟨by decide, by decide,
    decompress_chunking Toy.dengine (fun _ input => input.size - input.pos) Toy.RelD
      { error := "" } Toy.Phase.tag [[1], [7], [1], [8], [0]] [[1, 7, 1], [8, 0]]
      (by decide) (by decide) rfl rfl (Toy.dengine_decodes [7, 8]) Toy.RelD_fun
      (by decide) (by decide) (by decide)⟩

end ZS
